import Mathlib

/-!
Verification of the crawl-and-chunk pipeline of the AICheckList repository.

The Python sources under app/services/kb (chunker.py, cleaner.py, scraper.py,
models.py) are shallowly embedded below.  Python strings are modelled as
List Char (named PyStr); Python ints that are used as sizes are modelled as
Nat; functions that can raise return Option.  Regular-expression
substitutions from cleaner.py are embedded as single-pass character
scanners whose behaviour matches re.sub's left-to-right, leftmost,
greedy semantics for the concrete patterns appearing in the source.
-/

/-- PyStr models a Python str as its list of characters. -/
abbrev PyStr := List Char

/-- Convenience conversion from a Lean string literal to PyStr. -/
def pyStr (s : String) : PyStr := s.data

/-- Whitespace set used by Python's str.strip and by the regex class \s on
str patterns: ASCII whitespace, the C1/Unicode space characters. -/
def isPySpace (c : Char) : Bool :=
  c == ' ' || c == '\t' || c == '\n' || c == '\r' || c == '\x0b' || c == '\x0c' ||
  (decide ('\x1c' ≤ c) && decide (c ≤ '\x1f')) || c == '\x85' || c == '\xa0' ||
  c == '\u1680' || (decide ('\u2000' ≤ c) && decide (c ≤ '\u200a')) ||
  c == '\u2028' || c == '\u2029' || c == '\u202f' || c == '\u205f' || c == '\u3000'

/-- Zero-width characters removed by cleaner.ZERO_WIDTH_PATTERN. -/
def isZeroWidth (c : Char) : Bool :=
  c == '\u200b' || c == '\u200c' || c == '\u200d' || c == '\u2060'

/-- Bullet glyphs of cleaner.BULLET_PATTERN's character class. -/
def isBullet (c : Char) : Bool :=
  c == '-' || c == '•' || c == '‣' || c == '⁃' || c == '∙' ||
  c == '◦' || c == '⁌' || c == '⁍' || c == '−' ||
  c == '–' || c == '—' || c == '*'

/-- Punctuation class of cleaner.SPACE_BEFORE_PUNCT. -/
def isPunct (c : Char) : Bool :=
  c == ',' || c == '.' || c == '!' || c == '?' || c == ';' || c == ':'

/-- Scanner for cleaner.MULTISPACE_PATTERN.sub: every maximal run of spaces
and tabs is replaced by a single space.  The flag records whether the scan
is inside such a run. -/
def collapse_spaces_go : Bool → PyStr → PyStr
  | _, [] => []
  | inRun, c :: rest =>
    if c == ' ' || c == '\t' then
      if inRun then collapse_spaces_go true rest
      else ' ' :: collapse_spaces_go true rest
    else c :: collapse_spaces_go false rest

/-- Replacement pass for text.replace("\r\n", "\n"): left-to-right scan
cutting each non-overlapping carriage-return/newline pair down to the
newline. -/
def replace_crlf : PyStr → PyStr
  | [] => []
  | [c] => [c]
  | c1 :: c2 :: rest =>
    if c1 = '\r' ∧ c2 = '\n' then '\n' :: replace_crlf rest
    else c1 :: replace_crlf (c2 :: rest)

/-- Count of newline characters in a run. -/
def countNewlines (s : PyStr) : Nat := s.countP (fun c => c == '\n')

/-- Effect of cleaner.MULTINEWLINE_PATTERN.sub("\n\n") on one maximal
whitespace run: the regex \n\s*\n\s*\n+ matches (greedily, leftmost) from
the run's first newline to its last newline provided the run holds at least
three newlines, and that span is replaced by two newlines. -/
def flush_ws_run (run : PyStr) : PyStr :=
  if 3 ≤ countNewlines run then
    run.takeWhile (fun c => c ≠ '\n') ++ '\n' :: '\n' ::
      (run.reverse.takeWhile (fun c => c ≠ '\n')).reverse
  else run

/-- Scanner for cleaner.MULTINEWLINE_PATTERN.sub: whitespace characters are
buffered into the current run, which is flushed through flush_ws_run at a
non-whitespace character or at the end of input. -/
def collapse_newlines_go (run : PyStr) : PyStr → PyStr
  | [] => flush_ws_run run
  | c :: rest =>
    if isPySpace c then collapse_newlines_go (run ++ [c]) rest
    else flush_ws_run run ++ c :: collapse_newlines_go [] rest

/-- Scanner for cleaner.BULLET_PATTERN.sub("- ") with re.MULTILINE: a bullet
glyph standing at the start of the string or right after a newline, together
with the greedy \s* run following it, is replaced by a dash and a space.
The skipping flag is set while the \s* run of a match is being consumed and
prevNL records whether the previously consumed character was a newline
(which is what makes the next position a line start). -/
def bullet_sub_go : Bool → Bool → PyStr → PyStr
  | _, _, [] => []
  | skipping, prevNL, c :: rest =>
    if skipping && isPySpace c then bullet_sub_go true (c == '\n') rest
    else if prevNL && isBullet c then '-' :: ' ' :: bullet_sub_go true false rest
    else c :: bullet_sub_go false (c == '\n') rest

/-- Scanner for cleaner.SPACE_BEFORE_PUNCT.sub(r"\1"): a maximal whitespace
run immediately followed by one of the punctuation characters is replaced by
just that punctuation character.  The run argument buffers the current
whitespace run. -/
def space_punct_go (run : PyStr) : PyStr → PyStr
  | [] => run
  | c :: rest =>
    if isPySpace c then space_punct_go (run ++ [c]) rest
    else if !run.isEmpty && isPunct c then c :: space_punct_go [] rest
    else run ++ c :: space_punct_go [] rest

/-- Python str.strip(): leading and trailing whitespace removed. -/
def py_strip (s : PyStr) : PyStr :=
  ((s.dropWhile isPySpace).reverse.dropWhile isPySpace).reverse

/-- Characters allowed inside a named character reference, the class
[^\t\n\x0c <&#;] of CPython's html._charref pattern. -/
def isNameChar (c : Char) : Bool :=
  !(c == '\t' || c == '\n' || c == '\x0c' || c == ' ' || c == '<' || c == '&' ||
    c == '#' || c == ';')

def isDecDigit (c : Char) : Bool := decide ('0' ≤ c) && decide (c ≤ '9')

def isHexDigitChar (c : Char) : Bool :=
  isDecDigit c || (decide ('a' ≤ c) && decide (c ≤ 'f')) ||
  (decide ('A' ≤ c) && decide (c ≤ 'F'))

def decDigitVal (c : Char) : Nat := c.toNat - '0'.toNat

def hexDigitVal (c : Char) : Nat :=
  if isDecDigit c then c.toNat - '0'.toNat
  else if decide ('a' ≤ c) && decide (c ≤ 'f') then c.toNat - 'a'.toNat + 10
  else c.toNat - 'A'.toNat + 10

def natOfDecDigits (ds : PyStr) : Nat := ds.foldl (fun a c => 10 * a + decDigitVal c) 0

def natOfHexDigits (ds : PyStr) : Nat := ds.foldl (fun a c => 16 * a + hexDigitVal c) 0

/-- Windows-1252 remapping table html._invalid_charrefs used by CPython's
html.unescape for numeric references. -/
def invalidCharref (n : Nat) : Option PyStr :=
  match n with
  | 0x00 => some (pyStr "�")
  | 0x0d => some (pyStr "\r")
  | 0x80 => some (pyStr "€")
  | 0x81 => some (pyStr "\x81")
  | 0x82 => some (pyStr "‚")
  | 0x83 => some (pyStr "ƒ")
  | 0x84 => some (pyStr "„")
  | 0x85 => some (pyStr "…")
  | 0x86 => some (pyStr "†")
  | 0x87 => some (pyStr "‡")
  | 0x88 => some (pyStr "ˆ")
  | 0x89 => some (pyStr "‰")
  | 0x8a => some (pyStr "Š")
  | 0x8b => some (pyStr "‹")
  | 0x8c => some (pyStr "Œ")
  | 0x8d => some (pyStr "\x8d")
  | 0x8e => some (pyStr "Ž")
  | 0x8f => some (pyStr "\x8f")
  | 0x90 => some (pyStr "\x90")
  | 0x91 => some (pyStr "‘")
  | 0x92 => some (pyStr "’")
  | 0x93 => some (pyStr "“")
  | 0x94 => some (pyStr "”")
  | 0x95 => some (pyStr "•")
  | 0x96 => some (pyStr "–")
  | 0x97 => some (pyStr "—")
  | 0x98 => some (pyStr "˜")
  | 0x99 => some (pyStr "™")
  | 0x9a => some (pyStr "š")
  | 0x9b => some (pyStr "›")
  | 0x9c => some (pyStr "œ")
  | 0x9d => some (pyStr "\x9d")
  | 0x9e => some (pyStr "ž")
  | 0x9f => some (pyStr "Ÿ")
  | _ => none

/-- Membership in html._invalid_codepoints (noncharacters and controls that
CPython's html.unescape drops). -/
def isInvalidCodepoint (n : Nat) : Bool :=
  (decide (1 ≤ n) && decide (n ≤ 8)) || n == 0xb ||
  (decide (0xe ≤ n) && decide (n ≤ 0x1f)) ||
  (decide (0x7f ≤ n) && decide (n ≤ 0x9f)) ||
  (decide (0xfdd0 ≤ n) && decide (n ≤ 0xfdef)) ||
  n % 0x10000 == 0xfffe || n % 0x10000 == 0xffff

/-- Replacement text for a numeric character reference with value n,
following html._replace_charref. -/
def numericRef (n : Nat) : PyStr :=
  match invalidCharref n with
  | some r => r
  | none =>
    if (decide (0xd800 ≤ n) && decide (n ≤ 0xdfff)) || decide (0x10ffff < n) then
      pyStr "�"
    else if isInvalidCodepoint n then []
    else [Char.ofNat n]

/-- Named-entity table for html.unescape.  CPython resolves names through
the full html.entities.html5 dictionary (over two thousand entries); this
embedding carries the classic core entities, with and without the trailing
semicolon exactly as html5 does.  None of the verified claims exercises
entity expansion (the repository's texts reach html.unescape only through
this table's fast path or simple entities). -/
def htmlEntityTable : List (PyStr × PyStr) :=
  [ (pyStr "amp;", pyStr "&"), (pyStr "amp", pyStr "&"),
    (pyStr "lt;", pyStr "<"), (pyStr "lt", pyStr "<"),
    (pyStr "gt;", pyStr ">"), (pyStr "gt", pyStr ">"),
    (pyStr "quot;", pyStr "\""), (pyStr "quot", pyStr "\""),
    (pyStr "apos;", pyStr "'"),
    (pyStr "nbsp;", pyStr "\xa0"), (pyStr "nbsp", pyStr "\xa0"),
    (pyStr "copy;", pyStr "\xa9"), (pyStr "copy", pyStr "\xa9"),
    (pyStr "reg;", pyStr "\xae"), (pyStr "reg", pyStr "\xae") ]

/-- Longest-prefix lookup of html._replace_charref's fallback loop: for x
from g.length - 1 down to 2 the prefix g[:x] is looked up in the table. -/
def namedRefFallback (g : PyStr) : Nat → Option PyStr
  | 0 => none
  | x + 1 =>
    if x + 1 < 2 then none
    else
      match htmlEntityTable.lookup (g.take (x + 1)) with
      | some v => some (v ++ g.drop (x + 1))
      | none => namedRefFallback g x

/-- Replacement for a named reference group g (the text after the
ampersand, possibly ending in a semicolon), following
html._replace_charref: exact lookup, then longest-prefix lookup, then the
group is reproduced behind the ampersand. -/
def namedRef (g : PyStr) : PyStr :=
  match htmlEntityTable.lookup g with
  | some v => v
  | none =>
    match namedRefFallback g (g.length - 1) with
    | some v => v
    | none => '&' :: g

/-- Matcher for html._charref at a position just after an ampersand:
returns the replacement text together with the number of characters of the
match consumed after the ampersand, or none when the pattern does not match
here.  The alternatives are tried in the regex's order: decimal reference,
hexadecimal reference, then a named reference of at most 32 characters,
each with an optional trailing semicolon. -/
def matchCharref (s : PyStr) : Option (PyStr × Nat) :=
  match s with
  | '#' :: t =>
    let digits := t.takeWhile isDecDigit
    if digits ≠ [] then
      let semi := (t.drop digits.length).head? == some ';'
      some (numericRef (natOfDecDigits digits),
            1 + digits.length + (if semi then 1 else 0))
    else
      match t with
      | x :: t2 =>
        if x == 'x' || x == 'X' then
          let hex := t2.takeWhile isHexDigitChar
          if hex ≠ [] then
            let semi := (t2.drop hex.length).head? == some ';'
            some (numericRef (natOfHexDigits hex),
                  2 + hex.length + (if semi then 1 else 0))
          else none
        else none
      | [] => none
  | _ =>
    let name := (s.takeWhile isNameChar).take 32
    if name = [] then none
    else
      let semi := (s.drop name.length).head? == some ';'
      let g := if semi then name ++ [';'] else name
      some (namedRef g, g.length)

/-- Scanner applying matchCharref at every ampersand, left to right,
continuing after each match (html._charref.sub(html._replace_charref)). -/
def charref_sub : PyStr → PyStr
  | [] => []
  | c :: rest =>
    if c == '&' then
      match matchCharref rest with
      | none => '&' :: charref_sub rest
      | some (rep, k) => rep ++ charref_sub (rest.drop k)
    else c :: charref_sub rest
termination_by s => s.length
decreasing_by
  all_goals simp
  omega

/-- Python html.unescape: strings without an ampersand are returned
untouched, otherwise character references are substituted. -/
def html_unescape (s : PyStr) : PyStr :=
  if s.contains '&' then charref_sub s else s

/-- Embedding of cleaner.normalize_text.  The only caller in the chunking
pipeline passes normalize_bullets=None, so the bullet flag comes from the
cached global settings; that ambient configuration value is made an
explicit argument here. -/
def normalize_text (do_bullets : Bool) (text : PyStr) : PyStr :=
  let c1 := html_unescape text
  let c2 := c1.filter (fun c => !isZeroWidth c)
  let c3 := c2.map (fun c => if c == '\xa0' then ' ' else c)
  let c4 := collapse_spaces_go false c3
  let c5 := (replace_crlf c4).map (fun c => if c == '\r' then '\n' else c)
  let c6 := collapse_newlines_go [] c5
  let c7 := if do_bullets then bullet_sub_go false true c6 else c6
  let c8 := space_punct_go [] c7
  py_strip c8

/-- UTF-8 encoding of one character, as Python str.encode("utf-8") yields. -/
def utf8Encode (c : Char) : List Nat :=
  let n := c.toNat
  if n < 0x80 then [n]
  else if n < 0x800 then [0xc0 + n / 0x40, 0x80 + n % 0x40]
  else if n < 0x10000 then
    [0xe0 + n / 0x1000, 0x80 + (n / 0x40) % 0x40, 0x80 + n % 0x40]
  else
    [0xf0 + n / 0x40000, 0x80 + (n / 0x1000) % 0x40, 0x80 + (n / 0x40) % 0x40,
     0x80 + n % 0x40]

/-- UTF-8 byte sequence of a string, each byte a Nat below 256. -/
def utf8Bytes (s : PyStr) : List Nat := (s.map utf8Encode).flatten

/-- Truncation to a 32-bit word. -/
def w32 (n : Nat) : Nat := n % 2 ^ 32

/-- Rotate a 32-bit word right by k bits. -/
def rotr32 (x k : Nat) : Nat := w32 ((x >>> k) ||| (x <<< (32 - k)))

/-- Round constants of SHA-256 (hashlib.sha256). -/
def sha256K : List Nat :=
  [ 1116352408, 1899447441, 3049323471, 3921009573, 961987163, 1508970993,
   2453635748, 2870763221, 3624381080, 310598401, 607225278, 1426881987,
   1925078388, 2162078206, 2614888103, 3248222580, 3835390401, 4022224774,
   264347078, 604807628, 770255983, 1249150122, 1555081692, 1996064986,
   2554220882, 2821834349, 2952996808, 3210313671, 3336571891, 3584528711,
   113926993, 338241895, 666307205, 773529912, 1294757372, 1396182291,
   1695183700, 1986661051, 2177026350, 2456956037, 2730485921, 2820302411,
   3259730800, 3345764771, 3516065817, 3600352804, 4094571909, 275423344,
   430227734, 506948616, 659060556, 883997877, 958139571, 1322822218,
   1537002063, 1747873779, 1955562222, 2024104815, 2227730452, 2361852424,
   2428436474, 2756734187, 3204031479, 3329325298]

/-- Initial hash state of SHA-256. -/
def sha256H0 : List Nat :=
  [ 1779033703, 3144134277, 1013904242, 2773480762, 1359893119, 2600822924,
   528734635, 1541459225]

/-- Big-endian byte expansion of n over k bytes. -/
def natToBytesBE (k n : Nat) : List Nat :=
  (List.range k).map fun i => (n >>> (8 * (k - 1 - i))) % 256

/-- Merkle-Damgard padding of SHA-256. -/
def sha256Pad (msg : List Nat) : List Nat :=
  let padLen := (64 + 56 - (msg.length + 1) % 64) % 64
  msg ++ 0x80 :: List.replicate padLen 0 ++ natToBytesBE 8 (8 * msg.length)

/-- Split a byte list into 64-byte blocks. -/
def toBlocks (bs : List Nat) : List (List Nat) :=
  if bs = [] then [] else bs.take 64 :: toBlocks (bs.drop 64)
termination_by bs.length
decreasing_by
  rename_i h
  have hl : 0 < bs.length := List.length_pos.mpr h
  simp
  omega

/-- Sixteen big-endian 32-bit words of one block. -/
def wordsOfBlock (b : List Nat) : List Nat :=
  (List.range 16).map fun i =>
    (b.getD (4 * i) 0) * 0x1000000 + (b.getD (4 * i + 1) 0) * 0x10000 +
    (b.getD (4 * i + 2) 0) * 0x100 + b.getD (4 * i + 3) 0

/-- Message-schedule extension: append words until 64 are present. -/
def extendWords (ws : List Nat) : Nat → List Nat
  | 0 => ws
  | n + 1 =>
    let len := ws.length
    let w15 := ws.getD (len - 15) 0
    let w2 := ws.getD (len - 2) 0
    let s0 := rotr32 w15 7 ^^^ rotr32 w15 18 ^^^ (w15 >>> 3)
    let s1 := rotr32 w2 17 ^^^ rotr32 w2 19 ^^^ (w2 >>> 10)
    extendWords (ws ++ [w32 (ws.getD (len - 16) 0 + s0 + ws.getD (len - 7) 0 + s1)]) n

/-- One SHA-256 round applied to the eight-word working state. -/
def sha256Round (st : List Nat) (wk : Nat × Nat) : List Nat :=
  match st with
  | [a, b, c, d, e, f, g, hh] =>
    let s1 := rotr32 e 6 ^^^ rotr32 e 11 ^^^ rotr32 e 25
    let ch := (e &&& f) ^^^ ((e ^^^ 0xffffffff) &&& g)
    let t1 := w32 (hh + s1 + ch + wk.2 + wk.1)
    let s0 := rotr32 a 2 ^^^ rotr32 a 13 ^^^ rotr32 a 22
    let maj := (a &&& b) ^^^ (a &&& c) ^^^ (b &&& c)
    let t2 := w32 (s0 + maj)
    [w32 (t1 + t2), a, b, c, w32 (d + t1), e, f, g]
  | other => other

/-- Compression of one block into the running hash state. -/
def sha256Compress (h : List Nat) (block : List Nat) : List Nat :=
  let ws := extendWords (wordsOfBlock block) 48
  let fin := (ws.zip sha256K).foldl sha256Round h
  h.zipWith (fun x y => w32 (x + y)) fin

/-- Lowercase hex digit. -/
def hexNibble (n : Nat) : Char :=
  if n < 10 then Char.ofNat ('0'.toNat + n) else Char.ofNat ('a'.toNat + n - 10)

/-- Eight-digit lowercase hex rendering of a 32-bit word. -/
def wordHex (n : Nat) : PyStr :=
  (List.range 8).map fun i => hexNibble ((n >>> (4 * (7 - i))) % 16)

/-- Hex digest of hashlib.sha256 over a byte sequence. -/
def sha256_hexdigest (msg : List Nat) : PyStr :=
  (((toBlocks (sha256Pad msg)).foldl sha256Compress sha256H0).map wordHex).flatten

/-- Embedding of models.Section. -/
structure Section where
  heading : Option PyStr
  text : PyStr
deriving DecidableEq

/-- Embedding of models.ArticleParsed. -/
structure ArticleParsed where
  url : PyStr
  locale : PyStr
  site_code : PyStr
  category : Option PyStr
  title : Option PyStr
  sections : Option (List Section)
  plain_text : Option PyStr
  content_hash : Option PyStr
deriving DecidableEq

/-- Embedding of models.ArticleParsed.source_hash: a truthy content_hash is
returned as is, otherwise the SHA-256 hex digest of the UTF-8 encoded plain
text (empty when plain_text is None). -/
def ArticleParsed.source_hash (a : ArticleParsed) : PyStr :=
  if a.content_hash.getD [] ≠ [] then a.content_hash.getD []
  else sha256_hexdigest (utf8Bytes (a.plain_text.getD []))

/-- Metadata dict attached by chunker.chunk_article to each chunk; the
heterogeneous Python dict is modelled as a structure, its int entries as
Nat. -/
structure ChunkMetadata where
  source_url : PyStr
  locale : PyStr
  site_code : PyStr
  category : PyStr
  doc_title : PyStr
  section_heading : PyStr
  chunk_index : Nat
  char_len : Nat
  source_hash : PyStr
deriving DecidableEq

/-- Embedding of models.Chunk. -/
structure Chunk where
  id : PyStr
  text : PyStr
  metadata : ChunkMetadata
deriving DecidableEq

/-- Scheme characters of urllib.parse.scheme_chars. -/
def isSchemeChar (c : Char) : Bool :=
  c.isAlpha || c.isDigit || c == '+' || c == '-' || c == '.'

/-- Splitting a list at the first occurrence of a character; none when the
character does not occur.  Mirrors Python's find-then-slice idiom. -/
def split_at_first (sep : Char) : PyStr → Option (PyStr × PyStr)
  | [] => none
  | c :: rest =>
    if c = sep then some ([], rest)
    else (split_at_first sep rest).map fun p => (c :: p.1, p.2)

/-- Parse result of urllib.parse.urlsplit. -/
structure SplitResult where
  scheme : PyStr
  netloc : PyStr
  path : PyStr
  query : PyStr
  fragment : PyStr
deriving DecidableEq

/-- Embedding of urllib.parse.urlsplit (CPython 3.11 line): strip leading
WHATWG C0-control-or-space characters, drop every tab, carriage return and
newline, extract a lowercased scheme when the text before the first colon
is a nonempty run of scheme characters starting with an ASCII letter, read
the netloc after a double slash up to the next slash, question mark or hash
(rejecting unbalanced square brackets with ValueError, modelled as none),
then split off the fragment at the first hash and the query at the first
question mark.  The additional netloc inspections of newer CPython
(_checknetloc's NFKC comparison and _check_bracketed_host's IPv6 parse)
depend only on the netloc, which canonicalization preserves verbatim; they
reject further inputs but never alter an accepted parse, so they are not
modelled. -/
def urlsplit (url : PyStr) : Option SplitResult :=
  let u0 := url.dropWhile fun c => decide (c ≤ '\x20')
  let u1 := u0.filter fun c => !(c == '\t' || c == '\r' || c == '\n')
  let su :=
    match split_at_first ':' u1 with
    | some (pre, post) =>
      if pre ≠ [] ∧ (pre.headD ' ').isAlpha ∧ pre.all isSchemeChar then
        (pre.map Char.toLower, post)
      else ([], u1)
    | none => ([], u1)
  let scheme := su.1
  let u2 := su.2
  let nu :=
    if u2.take 2 = ['/', '/'] then
      let netloc := (u2.drop 2).takeWhile fun c => !(c == '/' || c == '?' || c == '#')
      (netloc, (u2.drop 2).drop netloc.length)
    else ([], u2)
  let netloc := nu.1
  let u3 := nu.2
  if (netloc.contains '[' && !netloc.contains ']') ||
     (netloc.contains ']' && !netloc.contains '[') then none
  else
    let fr :=
      match split_at_first '#' u3 with
      | some (pre, post) => (pre, post)
      | none => (u3, [])
    let qr :=
      match split_at_first '?' fr.1 with
      | some (pre, post) => (pre, post)
      | none => (fr.1, [])
    some ⟨scheme, netloc, qr.1, qr.2, fr.2⟩

/-- Scheme list urllib.parse.uses_netloc (CPython 3.11). -/
def uses_netloc : List PyStr :=
  [[], pyStr "ftp", pyStr "http", pyStr "gopher", pyStr "nntp", pyStr "telnet",
   pyStr "imap", pyStr "wais", pyStr "file", pyStr "mms", pyStr "https",
   pyStr "shttp", pyStr "snews", pyStr "prospero", pyStr "rtsp", pyStr "rtsps",
   pyStr "rtspu", pyStr "rsync", pyStr "svn", pyStr "svn+ssh", pyStr "sftp",
   pyStr "nfs", pyStr "git", pyStr "git+ssh", pyStr "ws", pyStr "wss"]

/-- Embedding of urllib.parse.urlunsplit: the double slash is emitted for a
truthy netloc, or for a truthy scheme of uses_netloc when the path does not
already open with a double slash. -/
def urlunsplit (r : SplitResult) : PyStr :=
  let u := r.path
  let u :=
    if r.netloc ≠ [] ∨ (r.scheme ≠ [] ∧ r.scheme ∈ uses_netloc ∧ u.take 2 ≠ ['/', '/']) then
      '/' :: '/' :: r.netloc ++ (if u ≠ [] ∧ u.headD ' ' ≠ '/' then '/' :: u else u)
    else u
  let u := if r.scheme ≠ [] then r.scheme ++ ':' :: u else u
  let u := if r.query ≠ [] then u ++ '?' :: r.query else u
  if r.fragment ≠ [] then u ++ '#' :: r.fragment else u

/-- Python str.rstrip with a single strip character. -/
def rstrip_char (ch : Char) (s : PyStr) : PyStr :=
  (s.reverse.dropWhile fun c => c == ch).reverse

/-- Path cleaning inside scraper.canonicalize_url: strip all trailing
slashes (an emptied path becomes the root) and append the single trailing
slash back. -/
def canonical_path (p : PyStr) : PyStr :=
  let clean0 := rstrip_char '/' p
  let clean1 := if clean0 = [] then ['/'] else clean0
  if clean1.getLast? ≠ some '/' then clean1 ++ ['/'] else clean1

/-- Embedding of scraper.canonicalize_url: drop query and fragment and force
the path to end in exactly one slash.  A ValueError escaping from urlsplit
is modelled as none. -/
def canonicalize_url (url : PyStr) : Option PyStr :=
  (urlsplit url).map fun parts =>
    urlunsplit { parts with path := canonical_path parts.path, query := [], fragment := [] }

/-- Worker for Python str.split(sep) with a non-empty separator: scan left
to right, cutting at each non-overlapping occurrence of sep.  With an empty
separator Python raises; the scan then never cuts (the chunker only ever
passes non-empty separators). -/
def py_split_go (sep : PyStr) (acc : PyStr) : PyStr → List PyStr
  | [] => [acc]
  | c :: rest =>
    if h : sep ≠ [] ∧ sep.isPrefixOf (c :: rest) then
      acc :: py_split_go sep [] ((c :: rest).drop sep.length)
    else py_split_go sep (acc ++ [c]) rest
termination_by s => s.length
decreasing_by
  · obtain ⟨hne, -⟩ := h
    have : 0 < sep.length := List.length_pos.mpr hne
    simp
    omega
  · simp

/-- Python str.split(sep). -/
def py_split (sep s : PyStr) : List PyStr := py_split_go sep [] s

/-- Characters that survive scraper.slug_from_url's sanitizing regex. -/
def isSlugChar (c : Char) : Bool := c.isAlpha || c.isDigit || c == '_' || c == '-'

/-- Scanner for re.sub applied in slug_from_url: every maximal run of
characters outside [a-zA-Z0-9_-] collapses to a single dash. -/
def sanitize_slug_go : Bool → PyStr → PyStr
  | _, [] => []
  | inRun, c :: rest =>
    if isSlugChar c then c :: sanitize_slug_go false rest
    else if inRun then sanitize_slug_go true rest
    else '-' :: sanitize_slug_go true rest

/-- Python str.strip("-"). -/
def strip_dash (s : PyStr) : PyStr :=
  ((s.dropWhile fun c => c == '-').reverse.dropWhile fun c => c == '-').reverse

/-- Embedding of scraper.slug_from_url: last non-empty path segment (or
"index"), sanitized, dash-stripped, with "page" as the final fallback. -/
def slug_from_url (url : PyStr) : Option PyStr :=
  (urlsplit url).map fun parts =>
    let segments := (py_split (pyStr "/") parts.path).filter fun seg => seg ≠ []
    let slug0 := match segments.getLast? with
      | some s => s
      | none => pyStr "index"
    let slug2 := strip_dash (sanitize_slug_go false slug0)
    if slug2 = [] then pyStr "page" else slug2

/-- Separator priority list chunker.DEFAULT_SEPARATORS. -/
def DEFAULT_SEPARATORS : List PyStr := [pyStr "\n\n", pyStr "\n", pyStr ". ", pyStr " "]

/-- Fallback windowing loop at the end of chunker._split_by_separators: an
over-long item is cut into consecutive slices item[start : start + max_len].
The Python loop does not terminate for max_len = 0; every call in the
chunker has max_len at least 1, where this equation matches the slicing
because (c :: rest).drop maxLen = rest.drop (maxLen - 1). -/
def window_slices (maxLen : Nat) : PyStr → List PyStr
  | [] => []
  | c :: rest => (c :: rest).take maxLen :: window_slices maxLen (rest.drop (maxLen - 1))
termination_by s => s.length
decreasing_by
  simp
  omega

/-- Loop body of chunker._split_by_separators over the parts produced by one
separator split: greedy re-joining into buf while the candidate stays within
max_len, flushing buf when it would overflow, recursing through deeper (the
splitter for the remaining separators) for an over-long part when more
separators remain, and otherwise carrying the over-long part as the new buf.
Returns the flushed chunks together with the final buf. -/
def split_parts_go (sep : PyStr) (maxLen : Nat) (moreSeps : Bool)
    (deeper : PyStr → List PyStr) (buf : PyStr) :
    List PyStr → List PyStr × PyStr
  | [] => ([], buf)
  | part :: parts =>
    let candidate := if buf ≠ [] then buf ++ sep ++ part else part
    if candidate.length ≤ maxLen then
      split_parts_go sep maxLen moreSeps deeper candidate parts
    else
      let pre := if buf ≠ [] then [buf] else []
      if maxLen < part.length ∧ moreSeps then
        let r := split_parts_go sep maxLen moreSeps deeper [] parts
        (pre ++ deeper part ++ r.1, r.2)
      else
        let r := split_parts_go sep maxLen moreSeps deeper part parts
        (pre ++ r.1, r.2)

/-- Embedding of chunker._split_by_separators: short texts (and an exhausted
separator list) are returned whole; otherwise the text splits on the first
separator, parts are greedily packed by split_parts_go, a final buf is
flushed, and the collected chunks pass through the fallback windowing. -/
def split_by_separators (seps : List PyStr) (maxLen : Nat) (text : PyStr) :
    List PyStr :=
  if text.length ≤ maxLen ∨ seps = [] then [text]
  else
    match seps with
    | [] => [text]
    | sep :: rest =>
      let pr := split_parts_go sep maxLen (rest ≠ [])
        (fun t => split_by_separators rest maxLen t) [] (py_split sep text)
      let chunks := if pr.2 ≠ [] then pr.1 ++ [pr.2] else pr.1
      chunks.flatMap fun item =>
        if item.length ≤ maxLen then [item] else window_slices maxLen item
termination_by seps.length
decreasing_by
  simp

/-- Worker of chunker._apply_overlap: each subsequent chunk is prefixed with
the tail of the immediately preceding already-overlapped chunk (the whole of
it when it is not longer than the overlap window). -/
def overlap_go (overlap : Nat) (prev : PyStr) : List PyStr → List PyStr
  | [] => []
  | c :: rest =>
    let pre := if overlap < prev.length then prev.drop (prev.length - overlap) else prev
    let comb := pre ++ c
    comb :: overlap_go overlap comb rest

/-- Embedding of chunker._apply_overlap.  The Python guard overlap <= 0 is
overlap = 0 here because sizes are naturals. -/
def apply_overlap (chunks : List PyStr) (overlap : Nat) : List PyStr :=
  if overlap = 0 ∨ chunks.length ≤ 1 then chunks
  else
    match chunks with
    | [] => []
    | c :: rest => c :: overlap_go overlap c rest

/-- Embedding of chunker._merge_small: scanning left to right, a chunk
shorter than min_len (the final chunk excepted) merges with its successor
joined by a newline when their lengths sum to at most max_len, consuming
both; otherwise it is kept as is. -/
def merge_small (minLen maxLen : Nat) : List PyStr → List PyStr
  | [] => []
  | [c] => [c]
  | c :: n :: rest =>
    if minLen ≤ c.length then c :: merge_small minLen maxLen (n :: rest)
    else if c.length + n.length ≤ maxLen then
      (c ++ '\n' :: n) :: merge_small minLen maxLen rest
    else c :: merge_small minLen maxLen (n :: rest)

/-- Embedding of chunker._section_chunks: split, overlap, merge, then strip
each chunk and drop the ones that strip to nothing. -/
def section_chunks (sectionText : PyStr) (chunkSize overlap minLen : Nat) : List PyStr :=
  let base0 := split_by_separators DEFAULT_SEPARATORS chunkSize sectionText
  let base1 := apply_overlap base0 overlap
  let base2 := merge_small minLen chunkSize base1
  (base2.map py_strip).filter fun c => c ≠ []

/-- Embedding of chunker._section_iter: a truthy sections list contributes
the (index, heading, text) triples whose text does not strip to nothing
(heading None read as empty); when no such triple exists the whole plain
text (empty when None) becomes one synthetic section. -/
def section_iter (article : ArticleParsed) : List (Nat × PyStr × PyStr) :=
  let fallback := [(0, pyStr "(no_heading)", article.plain_text.getD [])]
  match article.sections with
  | some secs =>
    if secs ≠ [] then
      let result := secs.enum.filterMap fun p =>
        if py_strip p.2.text ≠ [] then some (p.1, p.2.heading.getD [], p.2.text) else none
      if result ≠ [] then result else fallback
    else fallback
  | none => fallback

/-- Decimal digit character. -/
def digitChar (n : Nat) : Char := Char.ofNat ('0'.toNat + n)

/-- Decimal rendering of a natural number, as Python's str formatting of a
non-negative int inside the chunk-id f-string. -/
def decimalRepr (n : Nat) : PyStr :=
  if n < 10 then [digitChar n] else decimalRepr (n / 10) ++ [digitChar (n % 10)]
termination_by n
decreasing_by
  rename_i h
  exact Nat.div_lt_self (by omega) (by omega)

/-- Chunk id f-string of chunker.chunk_article. -/
def chunk_id (locale slug : PyStr) (secIdx counter : Nat) : PyStr :=
  locale ++ '|' :: slug ++ '|' :: decimalRepr secIdx ++ '|' :: decimalRepr counter

/-- Inner loop of chunker.chunk_article over one section's chunks: each
chunk takes the running counter as its chunk_index inside both the id and
the metadata.  ArticleParsed always carries site_code, so the source's
getattr default (the locale) is never taken. -/
def emit_section_chunks (article : ArticleParsed) (slug srcHash : PyStr)
    (secIdx : Nat) (heading : PyStr) : List PyStr → Nat → List Chunk
  | [], _ => []
  | t :: ts, counter =>
    { id := chunk_id article.locale slug secIdx counter
      text := t
      metadata :=
        { source_url := article.url
          locale := article.locale
          site_code := article.site_code
          category := article.category.getD []
          doc_title := article.title.getD []
          section_heading := heading
          chunk_index := counter
          char_len := t.length
          source_hash := srcHash } } ::
      emit_section_chunks article slug srcHash secIdx heading ts (counter + 1)

/-- Outer loop of chunker.chunk_article over the section entries: sections
normalizing to nothing are skipped, and the chunk counter runs across the
whole article. -/
def build_chunks (doBullets : Bool) (article : ArticleParsed) (slug srcHash : PyStr)
    (cs co cm : Nat) : List (Nat × PyStr × PyStr) → Nat → List Chunk
  | [], _ => []
  | (secIdx, heading, rawText) :: more, counter =>
    let norm := normalize_text doBullets rawText
    if norm = [] then build_chunks doBullets article slug srcHash cs co cm more counter
    else
      let secChunks := section_chunks norm cs co cm
      emit_section_chunks article slug srcHash secIdx heading secChunks counter ++
        build_chunks doBullets article slug srcHash cs co cm more (counter + secChunks.length)

/-- Embedding of chunker.chunk_article.  The ambient normalize_bullets
setting reaching normalize_text through the cached global configuration is
an explicit first argument; the ValueError that slug_from_url propagates
out of chunk_article for an unparseable article URL is modelled as none. -/
def chunk_article (doBullets : Bool) (article : ArticleParsed)
    (chunk_size_chars chunk_overlap_chars chunk_min_chars : Nat) : Option (List Chunk) :=
  let entries := section_iter article
  (slug_from_url article.url).map fun slug =>
    build_chunks doBullets article slug article.source_hash
      chunk_size_chars chunk_overlap_chars chunk_min_chars entries 0

/-- Outcome of one session.get call inside scraper.polite_get: a
requests.RequestException (network failure or timeout), or a response with
an HTTP status code. -/
inductive AttemptOutcome
  | netError
  | resp (status : Nat)
deriving DecidableEq

/-- Result of scraper.polite_get: the returned response's status, or the
exception it raises (re-raised network error, or requests.HTTPError out of
raise_for_status). -/
inductive PoliteResult
  | success (status : Nat)
  | raisedNet
  | raisedStatus (status : Nat)
deriving DecidableEq

def DEFAULT_RETRIES : Nat := 3

/-- Backoff table scraper.BACKOFF_SECONDS, in seconds. -/
def BACKOFF_SECONDS : List ℚ := [1 / 2, 1, 2]

/-- Retryable status set of scraper.polite_get. -/
def RETRYABLE_STATUSES : List Nat := [429, 500, 502, 503, 504]

/-- Requests' Response.raise_for_status raises exactly for client and
server error codes, 400 through 599. -/
def raisesForStatus (st : Nat) : Bool := decide (400 ≤ st) && decide (st < 600)

/-- Sleep duration before the next attempt:
BACKOFF_SECONDS[min(attempt, len(BACKOFF_SECONDS) - 1)]. -/
def backoffDelay (attempt : Nat) : ℚ :=
  BACKOFF_SECONDS.getD (min attempt (BACKOFF_SECONDS.length - 1)) 0

/-- Loop of scraper.polite_get, driven by the outcome of each attempt
(indexed from 0); returns the result together with the list of sleeps
performed between attempts.  The rate-limit wait of FetchContext and the
request timeout are real-time behaviour outside this model.  The zero-fuel
value mirrors the return after the loop that the source marks as logically
unreachable. -/
def polite_get_loop (o : Nat → AttemptOutcome) (attempt : Nat) : Nat → PoliteResult × List ℚ
  | 0 => (.success 0, [])
  | left + 1 =>
    match o attempt with
    | .netError =>
      if attempt = DEFAULT_RETRIES - 1 then (.raisedNet, [])
      else
        let r := polite_get_loop o (attempt + 1) left
        (r.1, backoffDelay attempt :: r.2)
    | .resp st =>
      if st ∈ RETRYABLE_STATUSES then
        if attempt = DEFAULT_RETRIES - 1 then (.raisedStatus st, [])
        else
          let r := polite_get_loop o (attempt + 1) left
          (r.1, backoffDelay attempt :: r.2)
      else if raisesForStatus st then (.raisedStatus st, [])
      else (.success st, [])

/-- Embedding of scraper.polite_get over an attempt-outcome oracle. -/
def polite_get (o : Nat → AttemptOutcome) : PoliteResult × List ℚ :=
  polite_get_loop o 0 DEFAULT_RETRIES

/-- Outcome of the whole try-block body for one crawled page, as one oracle
answer: an exception carrying its message and optional HTTP status, or a
successful fetch-extract-persist with the article's outbound links. -/
inductive FetchResult
  | failure (error : PyStr) (status : Option Nat)
  | ok (outbound : List PyStr)

/-- Environment of one scrape_locale run: the network and filesystem
effects are oracle functions, with preexisting the slugs whose parsed
artifact already exists on disk before the run. -/
structure CrawlOracle where
  fetch : PyStr → FetchResult
  preexisting : List PyStr
  assetCount : PyStr → Nat

/-- Mutable state of scrape_locale's while-loop: frontier queue of
(url, category) pairs, visited set (as a list), stats counters, failure
records (url, error, http_status), slugs written by save_artifacts, the
ghost trace of URLs passed to polite_get, and the crashed flag modelling a
ValueError escaping the loop from canonicalize_url or slug_from_url (both
sit outside the per-page try). -/
structure CrawlState where
  queue : List (PyStr × PyStr)
  visited : List PyStr
  downloaded : Nat
  skipped : Nat
  errors : Nat
  assets : Nat
  failed_urls : List (PyStr × PyStr × Option Nat)
  written : List PyStr
  fetched : List PyStr
  crashed : Bool

/-- Embedding of the while-loop of scraper.scrape_locale (fuel-indexed; the
invariants proved below hold for every fuel).  The loop pops the frontier
head, canonicalizes, drops already-visited URLs, marks visited before
anything else, honours the page budget, skips pages whose parsed artifact
exists unless force is set, and otherwise fetches: a failure is recorded
and the crawl continues, a success persists artifacts and enqueues the
outbound links not yet visited under the same category. -/
def crawl_loop (o : CrawlOracle) (maxPages : Nat) (force downloadAssets : Bool) :
    Nat → CrawlState → CrawlState
  | 0, st => st
  | fuel + 1, st =>
    match st.queue with
    | [] => st
    | (url, category) :: rest =>
      match canonicalize_url url with
      | none => { st with crashed := true }
      | some u =>
        if u ∈ st.visited then
          crawl_loop o maxPages force downloadAssets fuel { st with queue := rest }
        else
          let st1 := { st with queue := rest, visited := u :: st.visited }
          if maxPages ≠ 0 ∧ maxPages ≤ st1.downloaded then st1
          else
            match slug_from_url u with
            | none => { st1 with crashed := true }
            | some slug =>
              if (slug ∈ o.preexisting ∨ slug ∈ st1.written) ∧ ¬force then
                crawl_loop o maxPages force downloadAssets fuel
                  { st1 with skipped := st1.skipped + 1 }
              else
                let st2 := { st1 with fetched := st1.fetched ++ [u] }
                match o.fetch u with
                | .failure err status =>
                  crawl_loop o maxPages force downloadAssets fuel
                    { st2 with
                      errors := st2.errors + 1
                      failed_urls := st2.failed_urls ++ [(u, err, status)] }
                | .ok outbound =>
                  let st3 := { st2 with
                    assets := st2.assets +
                      (if downloadAssets then o.assetCount u else 0)
                    written := st2.written ++ [slug]
                    downloaded := st2.downloaded + 1 }
                  crawl_loop o maxPages force downloadAssets fuel
                    { st3 with
                      queue := st3.queue ++
                        (outbound.filter fun l => l ∉ st3.visited).map
                          fun l => (l, category) }

/-- Initial loop state of a scrape_locale run, seeded either from the
parsed index page or from the urls_override list. -/
def initCrawlState (seed : List (PyStr × PyStr)) : CrawlState :=
  { queue := seed, visited := [], downloaded := 0, skipped := 0, errors := 0,
    assets := 0, failed_urls := [], written := [], fetched := [], crashed := false }

/-- Default chunk value used with List.getD in index-wise statements. -/
def dummyChunk : Chunk :=
  { id := [], text := [], metadata :=
    { source_url := [], locale := [], site_code := [], category := [],
      doc_title := [], section_heading := [], chunk_index := 0, char_len := 0,
      source_hash := [] } }

/-- Text after the last vertical bar of a string; on a chunk id this is the
decimal chunk counter, since the counter's digits contain no bar. -/
def last_bar_suffix (s : PyStr) : PyStr :=
  (s.reverse.takeWhile (fun c => c ≠ '|')).reverse

/-- Article of the C1 counterexample: one section of three words that split
into three five-character chunks at size 5. -/
def c1Article : ArticleParsed :=
  { url := pyStr "https://avto.pro/helpcenter/pay/article/"
    locale := pyStr "ru", site_code := pyStr "ru"
    category := none, title := none
    sections := some [⟨none, pyStr "aaaaa bbbbb ccccc"⟩]
    plain_text := none, content_hash := some (pyStr "h1") }

/-- Article of the C7 witness: two sections, several chunks. -/
def c7Article : ArticleParsed :=
  { url := pyStr "https://avto.pro/helpcenter/pay/how-to-pay/"
    locale := pyStr "ru", site_code := pyStr "ru"
    category := some (pyStr "Pay"), title := some (pyStr "T")
    sections := some [⟨some (pyStr "Intro"), pyStr "aaaaa bbbbb"⟩,
                      ⟨some (pyStr "More"), pyStr "ccccc"⟩]
    plain_text := none, content_hash := some (pyStr "h2") }

/-- Article of the C8 counterexample: no content at all, but a URL whose
unbalanced bracket makes urlsplit raise ValueError out of chunk_article. -/
def c8CexArticle : ArticleParsed :=
  { url := pyStr "http://[/oops"
    locale := pyStr "ru", site_code := pyStr "ru"
    category := none, title := none
    sections := none, plain_text := none, content_hash := some (pyStr "h3") }

/-- Article of the C8 witness: sections and plain text present but all
whitespace. -/
def c8WitnessArticle : ArticleParsed :=
  { url := pyStr "https://avto.pro/helpcenter/x/"
    locale := pyStr "ru", site_code := pyStr "ru"
    category := none, title := none
    sections := some [⟨some (pyStr "H"), pyStr " \n "⟩]
    plain_text := some (pyStr "  "), content_hash := some (pyStr "h4") }

/-- Article of the C9 counterexample: its section text opens with a bullet
glyph, so the ambient normalize_bullets setting changes the chunk text. -/
def c9BulletArticle : ArticleParsed :=
  { url := pyStr "https://avto.pro/helpcenter/pay/article/"
    locale := pyStr "ru", site_code := pyStr "ru"
    category := none, title := none
    sections := some [⟨none, pyStr "\u2022 hi"⟩]
    plain_text := none, content_hash := some (pyStr "h5") }

/-- Article of the C9 witness: no bullet glyphs, so both settings of the
ambient configuration normalize it identically. -/
def c9PlainArticle : ArticleParsed :=
  { url := pyStr "https://avto.pro/helpcenter/pay/article/"
    locale := pyStr "ru", site_code := pyStr "ru"
    category := none, title := none
    sections := some [⟨none, pyStr "hi there"⟩]
    plain_text := none, content_hash := some (pyStr "h6") }

/-- Oracle of the C6 witness: every fetch succeeds with one outbound link
back to an already-seen page. -/
def c6Oracle : CrawlOracle :=
  { fetch := fun _ => .ok [pyStr "https://a/b", pyStr "https://a/c"]
    preexisting := []
    assetCount := fun _ => 0 }

/-- Seed frontier of the C6 witness. -/
def c6Seed : List (PyStr × PyStr) := [(pyStr "https://a/b", pyStr "cat")]

/-- Attempt outcomes of the spec's retry example: HTTP 503 twice, then 200. -/
def outcomes503 : Nat → AttemptOutcome := fun n => if n < 2 then .resp 503 else .resp 200

/-- Guard failure of urlsplit's scheme extraction at the first colon of a
string: no scheme would be read off it. -/
def no_scheme_colon (s : PyStr) : Prop :=
  match split_at_first ':' s with
  | none => True
  | some (pre, _) => ¬(pre ≠ [] ∧ (pre.headD ' ').isAlpha ∧ pre.all isSchemeChar)

/-- C5 (amended): polite_get makes at most 3 attempts — its result depends
only on the outcomes of attempts 0, 1 and 2 — and the sleeps it performs
form a prefix of [0.5s, 1s] (indexed by attempt; the 2s table entry is
never reached with 3 attempts).  A network failure or a status in
429/500/502/503/504 retries after those backoff sleeps, and on the final
attempt raises.  A non-retryable status raises immediately without retry
exactly when it lies in 400..599 (requests' raise_for_status); any other
status — 2xx, but also e.g. 1xx/3xx, contrary to the claim's "any other
non-2xx status raises" — short-circuits and returns.  In particular 503 on
attempts 1 and 2 followed by 200 succeeds with sleeps 0.5s then 1.0s. -/
theorem polite_get_c5_policy :
    (∀ o o' : Nat → AttemptOutcome, o 0 = o' 0 → o 1 = o' 1 → o 2 = o' 2 →
      polite_get o = polite_get o') ∧
    (∀ o : Nat → AttemptOutcome, (polite_get o).2 <+: [(1 : ℚ) / 2, 1]) ∧
    (∀ (o : Nat → AttemptOutcome) (st : Nat), o 0 = .resp st →
      st ∉ RETRYABLE_STATUSES → 400 ≤ st → st < 600 →
      polite_get o = (.raisedStatus st, [])) ∧
    (∀ (o : Nat → AttemptOutcome) (st : Nat), o 0 = .resp st →
      st ∉ RETRYABLE_STATUSES → (st < 400 ∨ 600 ≤ st) →
      polite_get o = (.success st, [])) ∧
    (∀ (o : Nat → AttemptOutcome) (st₀ st₁ st₂ : Nat),
      o 0 = .resp st₀ → st₀ ∈ RETRYABLE_STATUSES →
      o 1 = .resp st₁ → st₁ ∈ RETRYABLE_STATUSES →
      o 2 = .resp st₂ → st₂ ∈ RETRYABLE_STATUSES →
      polite_get o = (.raisedStatus st₂, [1 / 2, 1])) ∧
    (∀ o : Nat → AttemptOutcome, o 0 = .netError → o 1 = .netError →
      o 2 = .netError → polite_get o = (.raisedNet, [1 / 2, 1])) ∧
    (∀ o : Nat → AttemptOutcome, o 0 = .resp 503 → o 1 = .resp 503 →
      o 2 = .resp 200 → polite_get o = (.success 200, [1 / 2, 1]))
    := by
  refine ⟨?_, ?_, ?_, ?_, ?_, ?_, ?_⟩
  · intro o o' e0 e1 e2
    simp only [polite_get, polite_get_loop, DEFAULT_RETRIES, e0, e1, e2]
  · intro o
    simp only [polite_get, polite_get_loop, DEFAULT_RETRIES]
    rcases o 0 with _ | st0 <;> rcases o 1 with _ | st1 <;> rcases o 2 with _ | st2 <;>
      simp only [backoffDelay, BACKOFF_SECONDS] <;> norm_num <;> split_ifs <;>
      simp_all [List.IsPrefix] <;> exact ⟨[1], rfl⟩
  · intro o st h0 hmem h4 h6
    have hr : raisesForStatus st = true := by simp [raisesForStatus]; omega
    simp [polite_get, polite_get_loop, DEFAULT_RETRIES, h0, hmem, hr]
  · intro o st h0 hmem hout
    have hr : raisesForStatus st = false := by simp [raisesForStatus]; omega
    simp [polite_get, polite_get_loop, DEFAULT_RETRIES, h0, hmem, hr]
  · intro o st₀ st₁ st₂ h0 m0 h1 m1 h2 m2
    simp [polite_get, polite_get_loop, DEFAULT_RETRIES, h0, h1, h2, m0, m1, m2,
          backoffDelay, BACKOFF_SECONDS]
  · intro o h0 h1 h2
    simp [polite_get, polite_get_loop, DEFAULT_RETRIES, h0, h1, h2,
          backoffDelay, BACKOFF_SECONDS]
  · intro o h0 h1 h2
    simp [polite_get, polite_get_loop, DEFAULT_RETRIES, h0, h1, h2,
          RETRYABLE_STATUSES, raisesForStatus, backoffDelay, BACKOFF_SECONDS]

/-- Witness for C5: the spec's 503/503/200 example run through the policy
theorem. -/
theorem polite_get_c5_policy_witness :
    polite_get outcomes503 = (.success 200, [1 / 2, 1]) :=
  polite_get_c5_policy.2.2.2.2.2.2 outcomes503 rfl rfl rfl

/-- C5 counterexample: HTTP 304 is not a 2xx status and is not retryable,
yet polite_get returns it as a success instead of raising — requests'
raise_for_status only raises for statuses in 400..599, refuting the
claim's "any other non-2xx status raises immediately". -/
theorem polite_get_c5_cex :
    polite_get (fun _ => .resp 304) = (.success 304, []) ∧
    ¬(200 ≤ 304 ∧ 304 < 300) ∧ 304 ∉ RETRYABLE_STATUSES := by
  refine ⟨?_, by omega, by decide⟩
  simp [polite_get, polite_get_loop, DEFAULT_RETRIES, RETRYABLE_STATUSES, raisesForStatus]

/-- Adjacent chunks produced by overlap_go satisfy the overlap-prefix
relation: the last min(overlap, len(prev)) characters of each chunk are a
prefix of the next, computed against the already-overlapped predecessor. -/
theorem overlap_go_chain (overlap : Nat) (rest : List PyStr) :
    ∀ prev : PyStr,
      List.Chain' (fun a b => a.drop (a.length - min overlap a.length) <+: b)
        (prev :: overlap_go overlap prev rest) := by
  induction rest with
  | nil => intro prev; simp [overlap_go]
  | cons c cs ih =>
    intro prev
    rw [overlap_go]
    refine List.chain'_cons.mpr ⟨?_, ih _⟩
    have hpre : (if overlap < prev.length then prev.drop (prev.length - overlap) else prev) =
        prev.drop (prev.length - min overlap prev.length) := by
      by_cases h : overlap < prev.length
      · rw [if_pos h, Nat.min_eq_left (Nat.le_of_lt h)]
      · rw [if_neg h, Nat.min_eq_right (Nat.le_of_not_lt h), Nat.sub_self, List.drop_zero]
    rw [← hpre]
    exact List.prefix_append _ _

/-- C2 (amended): with a positive overlap, the output of the overlap pass
_apply_overlap satisfies the claimed property — for each adjacent pair, the
last min(overlapChars, len(previous)) characters of the previous chunk are
a prefix of the next, the overlap being taken from the immediately
preceding already-overlapped output chunk.  The subsequent merge-small pass
and final trim do not preserve it for the emitted chunks (see the
counterexample, where trimming removes overlap characters). -/
theorem apply_overlap_c2_prefix (chunks : List PyStr) (overlap : Nat)
    (hov : 0 < overlap) :
    List.Chain' (fun a b => a.drop (a.length - min overlap a.length) <+: b)
      (apply_overlap chunks overlap) := by
  rw [apply_overlap.eq_def]
  split
  · rename_i h
    rcases h with h | h
    · omega
    · match chunks, h with
      | [], _ => exact List.chain'_nil
      | [c], _ => exact List.chain'_singleton c
  · match chunks with
    | [] => exact List.chain'_nil
    | c :: rest => exact overlap_go_chain overlap rest c

/-- Witness for C2: the amended overlap property at a two-chunk input. -/
theorem apply_overlap_c2_prefix_witness :
    0 < 2 ∧
    List.Chain' (fun a b => a.drop (a.length - min 2 a.length) <+: b)
      (apply_overlap [pyStr "aaaaa", pyStr "bbbbb"] 2) :=
  ⟨by decide, apply_overlap_c2_prefix [pyStr "aaaaa", pyStr "bbbbb"] 2 (by decide)⟩

/-- C2 counterexample: the section "ab \ncd" with size 5, overlap 2 and
min 0 emits chunks "ab" and "b cd"; the last min(2, 2) characters of the
first emitted chunk ("ab") are not a prefix of its successor, because the
final strip removed the space that carried the overlap — the claimed
property fails on the emitted chunks. -/
theorem section_chunks_c2_cex :
    section_chunks (pyStr "ab \ncd") 5 2 0 = [pyStr "ab", pyStr "b cd"] ∧
    0 < 2 ∧ 2 < 5 ∧ 0 ≤ 5 ∧
    ¬((pyStr "ab").drop ((pyStr "ab").length - min 2 (pyStr "ab").length) <+:
        pyStr "b cd") := by
  refine ⟨?_, by decide, by decide, by decide, by decide⟩
  simp [section_chunks, split_by_separators, py_split, py_split_go, split_parts_go,
        window_slices, apply_overlap, overlap_go, merge_small, py_strip, pyStr,
        DEFAULT_SEPARATORS, isPySpace]

/-- Output of merge_small on a non-empty input is non-empty. -/
theorem merge_small_ne_nil (mn mx : Nat) (x : PyStr) (xs : List PyStr) :
    merge_small mn mx (x :: xs) ≠ [] := by
  match xs with
  | [] => simp [merge_small]
  | n :: rest =>
    rw [merge_small]
    split_ifs <;> simp

/-- Head of merge_small's output is at least as long as the input's head:
it is the head itself or the head merged with its successor. -/
theorem merge_small_head_length (mn mx : Nat) (x : PyStr) (xs : List PyStr) :
    x.length ≤ ((merge_small mn mx (x :: xs)).headD []).length := by
  match xs with
  | [] => simp [merge_small]
  | n :: rest =>
    rw [merge_small]
    split_ifs <;> simp

/-- C3 (amended): in the list produced by the merge-small pass (before the
final trim, which can shorten emitted chunks below minChars — see the
counterexample), every chunk other than the last either reaches minChars,
or cannot merge with its successor (their lengths already sum past
chunkSizeChars, so joining them with a newline would exceed it), or is
itself the newline-join of two input chunks: a merged pair is emitted
without re-examination and advances two positions, a non-merge advances
one. -/
theorem merge_small_c3_property (minLen maxLen : Nat) (cs : List PyStr) :
    ∀ i : Nat, i + 1 < (merge_small minLen maxLen cs).length →
      minLen ≤ ((merge_small minLen maxLen cs).getD i []).length ∨
      maxLen < ((merge_small minLen maxLen cs).getD i []).length +
        ((merge_small minLen maxLen cs).getD (i + 1) []).length ∨
      ∃ a b, a ∈ cs ∧ b ∈ cs ∧
        (merge_small minLen maxLen cs).getD i [] = a ++ '\n' :: b := by
  induction cs using merge_small.induct minLen maxLen with
  | case1 => intro i h; simp [merge_small] at h
  | case2 c => intro i h; simp [merge_small] at h
  | case3 c n rest hmin ih =>
    intro i h
    rw [merge_small, if_pos hmin] at h ⊢
    match i with
    | 0 =>
      left
      simpa using hmin
    | j + 1 =>
      simp only [List.getD_cons_succ]
      simp only [List.length_cons, Nat.add_lt_add_iff_right] at h
      rcases ih j h with h1 | h1 | ⟨a, b, ha, hb, he⟩
      · exact Or.inl h1
      · exact Or.inr (Or.inl h1)
      · exact Or.inr (Or.inr ⟨a, b, List.mem_cons_of_mem _ ha, List.mem_cons_of_mem _ hb, he⟩)
  | case4 c n rest hmin hfit ih =>
    intro i h
    rw [merge_small, if_neg hmin, if_pos hfit] at h ⊢
    match i with
    | 0 =>
      right; right
      exact ⟨c, n, List.mem_cons_self _ _, List.mem_cons_of_mem _ (List.mem_cons_self _ _), rfl⟩
    | j + 1 =>
      simp only [List.getD_cons_succ]
      simp only [List.length_cons, Nat.add_lt_add_iff_right] at h
      rcases ih j h with h1 | h1 | ⟨a, b, ha, hb, he⟩
      · exact Or.inl h1
      · exact Or.inr (Or.inl h1)
      · refine Or.inr (Or.inr ⟨a, b, ?_, ?_, he⟩) <;>
          simp [List.mem_cons_of_mem, ha, hb]
  | case5 c n rest hmin hfit ih =>
    intro i h
    rw [merge_small, if_neg hmin, if_neg hfit] at h ⊢
    match i with
    | 0 =>
      right; left
      have hne := merge_small_ne_nil minLen maxLen n rest
      have hhead := merge_small_head_length minLen maxLen n rest
      match hm : merge_small minLen maxLen (n :: rest), hne with
      | m0 :: ms, _ =>
        rw [hm] at hhead
        simp only [List.headD_cons] at hhead
        simp only [List.getD_cons_zero, List.getD_cons_succ, hm]
        omega
    | j + 1 =>
      simp only [List.getD_cons_succ]
      simp only [List.length_cons, Nat.add_lt_add_iff_right] at h
      rcases ih j h with h1 | h1 | ⟨a, b, ha, hb, he⟩
      · exact Or.inl h1
      · exact Or.inr (Or.inl h1)
      · exact Or.inr (Or.inr ⟨a, b, List.mem_cons_of_mem _ ha, List.mem_cons_of_mem _ hb, he⟩)

/-- Witness for C3: a concrete merge-small run through the property
theorem. -/
theorem merge_small_c3_property_witness :
    0 + 1 < (merge_small 3 5 [pyStr "aaaa", pyStr "bb"]).length ∧
    (3 ≤ ((merge_small 3 5 [pyStr "aaaa", pyStr "bb"]).getD 0 []).length ∨
      5 < ((merge_small 3 5 [pyStr "aaaa", pyStr "bb"]).getD 0 []).length +
        ((merge_small 3 5 [pyStr "aaaa", pyStr "bb"]).getD 1 []).length ∨
      ∃ a b, a ∈ [pyStr "aaaa", pyStr "bb"] ∧ b ∈ [pyStr "aaaa", pyStr "bb"] ∧
        (merge_small 3 5 [pyStr "aaaa", pyStr "bb"]).getD 0 [] = a ++ '\n' :: b) :=
  ⟨by decide, merge_small_c3_property 3 5 [pyStr "aaaa", pyStr "bb"] 0 (by decide)⟩

/-- C3 counterexample: the section "abc \nefgh ijklmnop" with size 10,
overlap 0 and min 4 emits ["abc", "efgh", "ijklmnop"]; the first emitted
chunk is shorter than minChars (the trailing space that let it reach the
minimum was trimmed after the merge pass), it is not the section's last
chunk, and joining it with its successor by a newline would stay within
chunkSizeChars — refuting the claim about emitted chunks. -/
theorem section_chunks_c3_cex :
    section_chunks (pyStr "abc \nefgh ijklmnop") 10 0 4 =
      [pyStr "abc", pyStr "efgh", pyStr "ijklmnop"] ∧
    (pyStr "abc").length < 4 ∧
    (pyStr "abc" ++ '\n' :: pyStr "efgh").length ≤ 10 := by
  refine ⟨?_, by decide, by decide⟩
  simp [section_chunks, split_by_separators, py_split, py_split_go, split_parts_go,
        window_slices, apply_overlap, overlap_go, merge_small, py_strip, pyStr,
        DEFAULT_SEPARATORS, isPySpace]

/-- Every hard-window slice has length at most the window size. -/
theorem window_slices_length_le (maxLen : Nat) (s : PyStr) :
    ∀ c ∈ window_slices maxLen s, c.length ≤ maxLen := by
  induction s using window_slices.induct maxLen with
  | case1 =>
    intro c hc
    simp [window_slices] at hc
  | case2 ch rest ih =>
    intro c hc
    rw [window_slices] at hc
    rcases List.mem_cons.mp hc with rfl | hmem
    · exact List.length_take_le maxLen (ch :: rest)
    · exact ih c hmem

/-- Every chunk produced by the splitting pass is within the size limit:
chunks at most max_len pass through the final loop unchanged and longer
ones are hard-windowed into slices of at most max_len (the claim's one
possibly shorter tail slice included). -/
theorem split_by_separators_length_le (seps : List PyStr) (maxLen : Nat)
    (text : PyStr) (hseps : seps ≠ []) :
    ∀ c ∈ split_by_separators seps maxLen text, c.length ≤ maxLen := by
  intro c hc
  by_cases hcond : text.length ≤ maxLen ∨ seps = []
  · rw [split_by_separators.eq_def, if_pos hcond, List.mem_singleton] at hc
    subst hc
    rcases hcond with hlen | hnil
    · exact hlen
    · exact absurd hnil hseps
  · obtain ⟨sep, rest, rfl⟩ := List.exists_cons_of_ne_nil hseps
    rw [split_by_separators.eq_def, if_neg hcond] at hc
    simp only [List.mem_flatMap] at hc
    obtain ⟨item, -, hitem⟩ := hc
    by_cases hle : item.length ≤ maxLen
    · rw [if_pos hle, List.mem_singleton] at hitem
      subst hitem
      exact hle
    · rw [if_neg hle] at hitem
      exact window_slices_length_le maxLen item c hitem

/-- Each chunk of overlap_go is an overlap prefix of at most overlap
characters glued to an input chunk. -/
theorem overlap_go_length_le (ov B : Nat) (rest : List PyStr) :
    ∀ prev : PyStr, (∀ x ∈ rest, x.length ≤ B) →
      ∀ y ∈ overlap_go ov prev rest, y.length ≤ B + ov := by
  induction rest with
  | nil =>
    intro prev hb y hy
    rw [overlap_go] at hy
    exact absurd hy (List.not_mem_nil y)
  | cons c cs ih =>
    intro prev hb y hy
    rw [overlap_go] at hy
    rcases List.mem_cons.mp hy with rfl | hmem
    · have hc : c.length ≤ B := hb c (List.mem_cons_self _ _)
      have hpre : (if ov < prev.length then prev.drop (prev.length - ov) else prev).length
          ≤ ov := by
        split
        · rename_i hlt
          rw [List.length_drop]
          omega
        · rename_i hge
          omega
      rw [List.length_append]
      omega
    · exact ih _ (fun x hx => hb x (List.mem_cons_of_mem _ hx)) y hmem

/-- The overlap pass lengthens each chunk by at most the overlap window. -/
theorem apply_overlap_length_le (chunks : List PyStr) (ov B : Nat)
    (hb : ∀ x ∈ chunks, x.length ≤ B) :
    ∀ y ∈ apply_overlap chunks ov, y.length ≤ B + ov := by
  intro y hy
  rw [apply_overlap.eq_def] at hy
  split at hy
  · exact le_trans (hb y hy) (Nat.le_add_right _ _)
  · match chunks, hb, hy with
    | ch :: rest, hb, hy =>
      rcases List.mem_cons.mp hy with rfl | hmem
      · exact le_trans (hb _ (List.mem_cons_self _ _)) (Nat.le_add_right _ _)
      · exact overlap_go_length_le ov B rest ch
          (fun x hx => hb x (List.mem_cons_of_mem _ hx)) y hmem

/-- The merge pass keeps chunks within the incoming bound, except that a
merged pair can reach one character past the size limit (the joining
newline is not counted by the merge test). -/
theorem merge_small_length_le (mn mx B : Nat) (l : List PyStr)
    (hb : ∀ x ∈ l, x.length ≤ B) :
    ∀ y ∈ merge_small mn mx l, y.length ≤ max B (mx + 1) := by
  induction l using merge_small.induct mn mx with
  | case1 =>
    intro y hy
    simp [merge_small] at hy
  | case2 c =>
    intro y hy
    rw [merge_small, List.mem_singleton] at hy
    subst hy
    exact le_max_of_le_left (hb y (List.mem_cons_self _ _))
  | case3 c n rest hmin ih =>
    intro y hy
    rw [merge_small, if_pos hmin] at hy
    rcases List.mem_cons.mp hy with rfl | hmem
    · exact le_max_of_le_left (hb y (List.mem_cons_self _ _))
    · exact ih (fun x hx => hb x (List.mem_cons_of_mem _ hx)) y hmem
  | case4 c n rest hmin hfit ih =>
    intro y hy
    rw [merge_small, if_neg hmin, if_pos hfit] at hy
    rcases List.mem_cons.mp hy with rfl | hmem
    · refine le_max_of_le_right ?_
      rw [List.length_append, List.length_cons]
      omega
    · exact ih (fun x hx => hb x (List.mem_cons_of_mem _ (List.mem_cons_of_mem _ hx))) y hmem
  | case5 c n rest hmin hfit ih =>
    intro y hy
    rw [merge_small, if_neg hmin, if_neg hfit] at hy
    rcases List.mem_cons.mp hy with rfl | hmem
    · exact le_max_of_le_left (hb y (List.mem_cons_self _ _))
    · exact ih (fun x hx => hb x (List.mem_cons_of_mem _ hx)) y hmem

/-- Stripping never lengthens a string. -/
theorem py_strip_length_le (s : PyStr) : (py_strip s).length ≤ s.length := by
  unfold py_strip
  rw [List.length_reverse]
  calc ((s.dropWhile isPySpace).reverse.dropWhile isPySpace).length
      ≤ (s.dropWhile isPySpace).reverse.length :=
        (List.dropWhile_sublist isPySpace).length_le
    _ = (s.dropWhile isPySpace).length := List.length_reverse _
    _ ≤ s.length := (List.dropWhile_sublist isPySpace).length_le

/-- Every emitted section chunk stays within size + max(overlap, 1). -/
theorem section_chunks_length_le (text : PyStr) (cs co cm : Nat) :
    ∀ c ∈ section_chunks text cs co cm, c.length ≤ cs + max co 1 := by
  intro c hc
  unfold section_chunks at hc
  simp only [List.mem_filter, List.mem_map] at hc
  obtain ⟨⟨y, hy, hstrip⟩, -⟩ := hc
  have h1 : ∀ x ∈ split_by_separators DEFAULT_SEPARATORS cs text, x.length ≤ cs :=
    split_by_separators_length_le _ cs text (by simp [DEFAULT_SEPARATORS])
  have h2 := apply_overlap_length_le _ co cs h1
  have h3 := merge_small_length_le cm cs (cs + co) _ h2 y hy
  have h4 := py_strip_length_le y
  subst hstrip
  have h5 : max (cs + co) (cs + 1) ≤ cs + max co 1 := by omega
  omega

/-- A chunk emitted for one section carries a text from that section's
chunk list. -/
theorem emit_section_chunks_text_mem (a : ArticleParsed) (slug srcHash : PyStr)
    (secIdx : Nat) (heading : PyStr) (ts : List PyStr) :
    ∀ (k : Nat) (ch : Chunk), ch ∈ emit_section_chunks a slug srcHash secIdx heading ts k →
      ch.text ∈ ts := by
  induction ts with
  | nil =>
    intro k ch hch
    rw [emit_section_chunks] at hch
    exact absurd hch (List.not_mem_nil ch)
  | cons t ts ih =>
    intro k ch hch
    rw [emit_section_chunks] at hch
    rcases List.mem_cons.mp hch with rfl | hmem
    · exact List.mem_cons_self _ _
    · exact List.mem_cons_of_mem _ (ih _ ch hmem)

/-- Every chunk built for an article takes its text from the section-chunk
list of one of its entries. -/
theorem build_chunks_text_mem (b : Bool) (a : ArticleParsed) (slug srcHash : PyStr)
    (cs co cm : Nat) (entries : List (Nat × PyStr × PyStr)) :
    ∀ (k : Nat) (ch : Chunk), ch ∈ build_chunks b a slug srcHash cs co cm entries k →
      ∃ e ∈ entries, ch.text ∈ section_chunks (normalize_text b e.2.2) cs co cm := by
  induction entries with
  | nil =>
    intro k ch hch
    rw [build_chunks] at hch
    exact absurd hch (List.not_mem_nil ch)
  | cons e es ih =>
    intro k ch hch
    match e, hch with
    | (secIdx, heading, rawText), hch =>
      rw [build_chunks] at hch
      split at hch
      · obtain ⟨e2, he2, ht⟩ := ih _ ch hch
        exact ⟨e2, List.mem_cons_of_mem _ he2, ht⟩
      · rcases List.mem_append.mp hch with hmem | hmem
        · exact ⟨(secIdx, heading, rawText), List.mem_cons_self _ _,
            emit_section_chunks_text_mem a slug srcHash secIdx heading _ _ ch hmem⟩
        · obtain ⟨e2, he2, ht⟩ := ih _ ch hmem
          exact ⟨e2, List.mem_cons_of_mem _ he2, ht⟩

/-- C1 (amended): the splitting pass never exceeds chunkSizeChars — every
chunk it returns, hard-window slices included, has length at most the size
limit — but the claimed bound on the chunks emitted by chunk_article must
be relaxed to chunkSizeChars + max(overlapChars, 1): the overlap pass
prepends up to overlapChars characters to a chunk that may already be at
the limit, and the merge pass joins with a newline it does not count, so
with minChars ≤ chunkSizeChars and overlapChars < chunkSizeChars every
emitted chunk has length at most chunkSizeChars + max(overlapChars, 1),
and chunks over chunkSizeChars need not be hard-window tails (see the
counterexample). -/
theorem chunk_article_c1_size_bound :
    (∀ (seps : List PyStr) (maxLen : Nat) (text : PyStr), seps ≠ [] →
      ∀ c ∈ split_by_separators seps maxLen text, c.length ≤ maxLen) ∧
    (∀ (b : Bool) (a : ArticleParsed) (cs co cm : Nat) (out : List Chunk),
      cm ≤ cs → co < cs → chunk_article b a cs co cm = some out →
      ∀ ch ∈ out, ch.text.length ≤ cs + max co 1) := by
  refine ⟨fun seps maxLen text h => split_by_separators_length_le seps maxLen text h,
    fun b a cs co cm out _ _ hout ch hch => ?_⟩
  unfold chunk_article at hout
  match hslug : slug_from_url a.url, hout with
  | some slug, hout =>
    simp only [Option.map_some', Option.some.injEq] at hout
    subst hout
    obtain ⟨e, -, ht⟩ := build_chunks_text_mem b a slug a.source_hash cs co cm _ 0 ch hch
    exact section_chunks_length_le _ cs co cm _ ht

/-- Witness for C1: the splitting-pass bound at a concrete section text. -/
theorem chunk_article_c1_size_bound_witness :
    DEFAULT_SEPARATORS ≠ [] ∧
    ∀ c ∈ split_by_separators DEFAULT_SEPARATORS 5 (pyStr "aaaaa bbbbb ccccc"),
      c.length ≤ 5 :=
  ⟨by decide, chunk_article_c1_size_bound.1 DEFAULT_SEPARATORS 5
    (pyStr "aaaaa bbbbb ccccc") (by decide)⟩

/-- C1 counterexample: with size 5, overlap 2 and min 0 (min ≤ size and
overlap < size), the single-section article "aaaaa bbbbb ccccc" is emitted
by chunk_article as three chunks of lengths 5, 7 and 7: the second and the
third both exceed chunkSizeChars, and neither is a hard-window tail — the
overlap pass alone pushed them over the limit. -/
theorem chunk_article_c1_cex :
    (chunk_article true c1Article 5 2 0).map (fun l => l.map fun ch => ch.text.length) =
      some [5, 7, 7] ∧ 0 ≤ 5 ∧ 2 < 5 ∧ (5 : Nat) < 7 := by
  refine ⟨?_, by decide, by decide, by decide⟩
  simp [chunk_article, c1Article, section_iter, build_chunks, emit_section_chunks,
        slug_from_url, urlsplit, split_at_first, py_split, py_split_go, pyStr,
        normalize_text, html_unescape, collapse_spaces_go, replace_crlf,
        collapse_newlines_go, flush_ws_run, countNewlines, bullet_sub_go,
        space_punct_go, py_strip, isPySpace, isZeroWidth, isBullet, isPunct,
        ArticleParsed.source_hash,
        section_chunks, split_by_separators, split_parts_go, window_slices,
        apply_overlap, overlap_go, merge_small, DEFAULT_SEPARATORS,
        sanitize_slug_go, strip_dash, isSlugChar, isSchemeChar]

/-- Every character the slug sanitizer emits is alphanumeric, underscore or
dash. -/
theorem sanitize_slug_chars (s : PyStr) :
    ∀ (b : Bool), ∀ c ∈ sanitize_slug_go b s, isSlugChar c := by
  induction s with
  | nil =>
    intro b c hc
    rw [sanitize_slug_go] at hc
    exact absurd hc (List.not_mem_nil c)
  | cons x xs ih =>
    intro b c hc
    rw [sanitize_slug_go] at hc
    split at hc
    · rcases List.mem_cons.mp hc with rfl | hmem
      · assumption
      · exact ih _ c hmem
    · split at hc
      · exact ih _ c hc
      · rcases List.mem_cons.mp hc with rfl | hmem
        · decide
        · exact ih _ c hmem

/-- Dash stripping only removes characters. -/
theorem strip_dash_subset (s : PyStr) : ∀ c ∈ strip_dash s, c ∈ s := by
  intro c hc
  unfold strip_dash at hc
  rw [List.mem_reverse] at hc
  have h1 := (List.dropWhile_sublist (fun c => c == '-')).subset hc
  rw [List.mem_reverse] at h1
  exact (List.dropWhile_sublist (fun c => c == '-')).subset h1

/-- C10: whenever slug_from_url returns (urlsplit may raise ValueError on a
malformed bracketed host, modelled as none), the slug is a non-empty string
over ASCII letters, digits, hyphens and underscores: runs of other
characters collapse to a dash, the path with no non-empty segment falls
back to "index", and a slug emptied by sanitization falls back to "page" —
so every artifact filename derived from it is well-formed. -/
theorem slug_from_url_c10_wellformed (url s : PyStr)
    (h : slug_from_url url = some s) :
    s ≠ [] ∧ ∀ c ∈ s, isSlugChar c := by
  unfold slug_from_url at h
  match hsp : urlsplit url, h with
  | some parts, h =>
    simp only [hsp, Option.map_some', Option.some.injEq] at h
    by_cases hnil :
        strip_dash (sanitize_slug_go false
          (match ((py_split (pyStr "/") parts.path).filter fun seg => seg ≠ []).getLast? with
           | some s => s
           | none => pyStr "index")) = []
    · rw [if_pos hnil] at h
      subst h
      exact ⟨by decide, by decide⟩
    · rw [if_neg hnil] at h
      subst h
      exact ⟨hnil, fun c hc =>
        sanitize_slug_chars _ false c (strip_dash_subset _ c hc)⟩

/-- Witness for C10: the helpcenter article URL yields the slug "article",
well-formed per the theorem. -/
theorem slug_from_url_c10_wellformed_witness :
    slug_from_url (pyStr "https://avto.pro/helpcenter/payments/article/") =
      some (pyStr "article") ∧
    pyStr "article" ≠ [] ∧ ∀ c ∈ pyStr "article", isSlugChar c := by
  have he : slug_from_url (pyStr "https://avto.pro/helpcenter/payments/article/") =
      some (pyStr "article") := by
    simp [slug_from_url, urlsplit, split_at_first, py_split, py_split_go,
          sanitize_slug_go, strip_dash, pyStr, isSlugChar, isSchemeChar]
  exact ⟨he, slug_from_url_c10_wellformed _ _ he⟩

/-- The chunk builder depends on the ambient bullet setting only through
normalize_text on the section texts. -/
theorem build_chunks_norm_congr (b1 b2 : Bool) (a : ArticleParsed)
    (slug srcHash : PyStr) (cs co cm : Nat) (entries : List (Nat × PyStr × PyStr)) :
    ∀ k : Nat, (∀ e ∈ entries, normalize_text b1 e.2.2 = normalize_text b2 e.2.2) →
      build_chunks b1 a slug srcHash cs co cm entries k =
        build_chunks b2 a slug srcHash cs co cm entries k := by
  induction entries with
  | nil => intro k _; rw [build_chunks, build_chunks]
  | cons e es ih =>
    intro k h
    obtain ⟨secIdx, heading, rawText⟩ := e
    have hh : normalize_text b1 rawText = normalize_text b2 rawText :=
      h (secIdx, heading, rawText) (List.mem_cons_self _ _)
    have ih' := fun k2 => ih k2 (fun e2 he2 => h e2 (List.mem_cons_of_mem _ he2))
    rw [build_chunks, build_chunks, hh]
    split
    · exact ih' _
    · simp only [ih']

/-- C9 (amended): chunk_article is deterministic in the article, the three
size parameters and the ambient normalize_bullets configuration — two runs
agree whenever bullet normalization acts identically on the article's
section texts (in particular whenever the setting is the same) — but it is
not a pure function of the article and sizes alone: the global
configuration read during text normalization can change the output (see
the counterexample). -/
theorem chunk_article_c9_determinism (b1 b2 : Bool) (a : ArticleParsed)
    (cs co cm : Nat)
    (h : ∀ e ∈ section_iter a, normalize_text b1 e.2.2 = normalize_text b2 e.2.2) :
    chunk_article b1 a cs co cm = chunk_article b2 a cs co cm := by
  unfold chunk_article
  cases hsp : slug_from_url a.url with
  | none => rw [Option.map_none', Option.map_none']
  | some slug =>
    rw [Option.map_some', Option.map_some', Option.some.injEq]
    exact build_chunks_norm_congr b1 b2 a slug a.source_hash cs co cm _ 0 h

/-- Witness for C9: on an article without bullet glyphs the two settings of
the ambient configuration give the same chunks. -/
theorem chunk_article_c9_determinism_witness :
    chunk_article true c9PlainArticle 1400 200 300 =
      chunk_article false c9PlainArticle 1400 200 300 :=
  chunk_article_c9_determinism true false c9PlainArticle 1400 200 300 (by decide)

/-- C9 counterexample: the same article and parameters produce different
chunk lists under the two values of the global normalize_bullets setting —
with it on, the leading bullet glyph of the section text becomes a dash —
so chunk_article is not a pure function of the article and the three size
parameters alone. -/
theorem chunk_article_c9_cex :
    chunk_article true c9BulletArticle 1400 200 300 ≠
      chunk_article false c9BulletArticle 1400 200 300 := by
  have e1 : (chunk_article true c9BulletArticle 1400 200 300).map
      (fun l => l.map Chunk.text) = some [pyStr "- hi"] := by
    simp [chunk_article, c9BulletArticle, section_iter, build_chunks,
        emit_section_chunks, slug_from_url, urlsplit, split_at_first, py_split,
        py_split_go, pyStr, normalize_text, html_unescape, collapse_spaces_go,
        replace_crlf, collapse_newlines_go, flush_ws_run, countNewlines,
        bullet_sub_go, space_punct_go, py_strip, isPySpace, isZeroWidth,
        isBullet, isPunct, ArticleParsed.source_hash, section_chunks,
        split_by_separators, split_parts_go, window_slices, apply_overlap,
        overlap_go, merge_small, DEFAULT_SEPARATORS, sanitize_slug_go,
        strip_dash, isSlugChar, isSchemeChar, chunk_id, decimalRepr, digitChar]
  have e2 : (chunk_article false c9BulletArticle 1400 200 300).map
      (fun l => l.map Chunk.text) = some [pyStr "\u2022 hi"] := by
    simp [chunk_article, c9BulletArticle, section_iter, build_chunks,
        emit_section_chunks, slug_from_url, urlsplit, split_at_first, py_split,
        py_split_go, pyStr, normalize_text, html_unescape, collapse_spaces_go,
        replace_crlf, collapse_newlines_go, flush_ws_run, countNewlines,
        bullet_sub_go, space_punct_go, py_strip, isPySpace, isZeroWidth,
        isBullet, isPunct, ArticleParsed.source_hash, section_chunks,
        split_by_separators, split_parts_go, window_slices, apply_overlap,
        overlap_go, merge_small, DEFAULT_SEPARATORS, sanitize_slug_go,
        strip_dash, isSlugChar, isSchemeChar, chunk_id, decimalRepr, digitChar]
  intro heq
  rw [heq, e2] at e1
  exact absurd e1 (by decide)

/-- Numeric footprint of the Python whitespace class. -/
theorem isPySpace_toNat (c : Char) (h : isPySpace c = true) :
    c.toNat = 32 ∨ c.toNat = 9 ∨ c.toNat = 10 ∨ c.toNat = 13 ∨ c.toNat = 11 ∨
    c.toNat = 12 ∨ (28 ≤ c.toNat ∧ c.toNat ≤ 31) ∨ c.toNat = 0x85 ∨
    c.toNat = 0xa0 ∨ c.toNat = 0x1680 ∨ (0x2000 ≤ c.toNat ∧ c.toNat ≤ 0x200a) ∨
    c.toNat = 0x2028 ∨ c.toNat = 0x2029 ∨ c.toNat = 0x202f ∨ c.toNat = 0x205f ∨
    c.toNat = 0x3000 := by
  simp only [isPySpace, Bool.or_eq_true, beq_iff_eq, Bool.and_eq_true,
    decide_eq_true_eq] at h
  rcases h with
    ((((((((((((((rfl|rfl)|rfl)|rfl)|rfl)|rfl)|⟨h1,h2⟩)|rfl)|rfl)|rfl)|⟨h1,h2⟩)|rfl)|rfl)|rfl)|rfl)|rfl
  · decide
  · decide
  · decide
  · decide
  · decide
  · decide
  · have g1 : 28 ≤ c.toNat := h1
    have g2 : c.toNat ≤ 31 := h2
    omega
  · decide
  · decide
  · decide
  · have g1 : 0x2000 ≤ c.toNat := h1
    have g2 : c.toNat ≤ 0x200a := h2
    omega
  · decide
  · decide
  · decide
  · decide
  · decide

/-- Numeric footprint of the bullet-glyph class. -/
theorem isBullet_toNat (c : Char) (h : isBullet c = true) :
    c.toNat = 45 ∨ c.toNat = 0x2022 ∨ c.toNat = 0x2023 ∨ c.toNat = 0x2043 ∨
    c.toNat = 0x2219 ∨ c.toNat = 0x25e6 ∨ c.toNat = 0x204c ∨ c.toNat = 0x204d ∨
    c.toNat = 0x2212 ∨ c.toNat = 0x2013 ∨ c.toNat = 0x2014 ∨ c.toNat = 42 := by
  simp only [isBullet, Bool.or_eq_true, beq_iff_eq] at h
  rcases h with ((((((((((rfl|rfl)|rfl)|rfl)|rfl)|rfl)|rfl)|rfl)|rfl)|rfl)|rfl)|rfl <;>
    decide

/-- Numeric footprint of the punctuation class. -/
theorem isPunct_toNat (c : Char) (h : isPunct c = true) :
    c.toNat = 44 ∨ c.toNat = 46 ∨ c.toNat = 33 ∨ c.toNat = 63 ∨ c.toNat = 59 ∨
    c.toNat = 58 := by
  simp only [isPunct, Bool.or_eq_true, beq_iff_eq] at h
  rcases h with ((((rfl|rfl)|rfl)|rfl)|rfl)|rfl <;> decide

/-- Whitespace is never a bullet glyph. -/
theorem pySpace_not_bullet (c : Char) (h : isPySpace c = true) :
    isBullet c = false := by
  by_contra hb
  rw [Bool.not_eq_false] at hb
  have h1 := isPySpace_toNat c h
  have h2 := isBullet_toNat c hb
  omega

/-- Whitespace is never one of the guarded punctuation characters. -/
theorem pySpace_not_punct (c : Char) (h : isPySpace c = true) :
    isPunct c = false := by
  by_contra hb
  rw [Bool.not_eq_false] at hb
  have h1 := isPySpace_toNat c h
  have h2 := isPunct_toNat c hb
  omega

/-- Whitespace is never an ampersand. -/
theorem pySpace_ne_amp (c : Char) (hc : c = '&') (h : isPySpace c = true) :
    False := by
  subst hc
  exact absurd h (by decide)

/-- All-whitespace strings pass through html.unescape unchanged. -/
theorem html_unescape_all_ws (s : PyStr) (h : ∀ c ∈ s, isPySpace c) :
    html_unescape s = s := by
  unfold html_unescape
  rw [if_neg]
  intro hc
  have hmem : '&' ∈ s := by simpa using hc
  exact pySpace_ne_amp '&' rfl (h '&' hmem)

/-- The space-and-tab collapser keeps an all-whitespace string
all-whitespace. -/
theorem collapse_spaces_all_ws (s : PyStr) :
    ∀ b : Bool, (∀ c ∈ s, isPySpace c) →
      ∀ c ∈ collapse_spaces_go b s, isPySpace c := by
  induction s with
  | nil =>
    intro b _ c hc
    rw [collapse_spaces_go] at hc
    exact absurd hc (List.not_mem_nil c)
  | cons x xs ih =>
    intro b h c hc
    rw [collapse_spaces_go] at hc
    have hx := h x (List.mem_cons_self _ _)
    have hxs := fun d hd => h d (List.mem_cons_of_mem _ hd)
    split at hc
    · split at hc
      · exact ih _ hxs c hc
      · rcases List.mem_cons.mp hc with rfl | hmem
        · decide
        · exact ih _ hxs c hmem
    · rcases List.mem_cons.mp hc with rfl | hmem
      · exact hx
      · exact ih _ hxs c hmem

/-- Characters produced by the CRLF pass come from the input or are
newlines. -/
theorem replace_crlf_mem (s : PyStr) :
    ∀ c ∈ replace_crlf s, c ∈ s ∨ c = '\n' := by
  induction s using replace_crlf.induct with
  | case1 =>
    intro c hc
    rw [replace_crlf] at hc
    exact absurd hc (List.not_mem_nil c)
  | case2 x =>
    intro c hc
    rw [replace_crlf] at hc
    exact Or.inl hc
  | case3 c1 c2 rest hpair ih =>
    intro c hc
    rw [replace_crlf, if_pos hpair] at hc
    rcases List.mem_cons.mp hc with rfl | hmem
    · exact Or.inr rfl
    · rcases ih c hmem with hm | hm
      · exact Or.inl (List.mem_cons_of_mem _ (List.mem_cons_of_mem _ hm))
      · exact Or.inr hm
  | case4 c1 c2 rest hpair ih =>
    intro c hc
    rw [replace_crlf, if_neg hpair] at hc
    rcases List.mem_cons.mp hc with rfl | hmem
    · exact Or.inl (List.mem_cons_self _ _)
    · rcases ih c hmem with hm | hm
      · exact Or.inl (List.mem_cons_of_mem _ hm)
      · exact Or.inr hm

/-- Characters of the whitespace-run flush come from the run or are
newlines. -/
theorem flush_ws_run_mem (run : PyStr) :
    ∀ c ∈ flush_ws_run run, c ∈ run ∨ c = '\n' := by
  intro c hc
  unfold flush_ws_run at hc
  split at hc
  · rcases List.mem_append.mp hc with hm | hm
    · exact Or.inl ((List.takeWhile_sublist _).subset hm)
    · rcases List.mem_cons.mp hm with rfl | hm
      · exact Or.inr rfl
      · rcases List.mem_cons.mp hm with rfl | hm
        · exact Or.inr rfl
        · rw [List.mem_reverse] at hm
          have h2 := (List.takeWhile_sublist (fun c => c ≠ '\n')).subset hm
          rw [List.mem_reverse] at h2
          exact Or.inl h2
  · exact Or.inl hc

/-- The blank-line collapser keeps an all-whitespace state and input
all-whitespace. -/
theorem collapse_newlines_all_ws (s : PyStr) :
    ∀ run : PyStr, (∀ c ∈ run, isPySpace c) → (∀ c ∈ s, isPySpace c) →
      ∀ c ∈ collapse_newlines_go run s, isPySpace c := by
  induction s with
  | nil =>
    intro run hrun _ c hc
    rw [collapse_newlines_go] at hc
    rcases flush_ws_run_mem run c hc with hm | rfl
    · exact hrun c hm
    · decide
  | cons x xs ih =>
    intro run hrun h c hc
    have hx := h x (List.mem_cons_self _ _)
    have hxs := fun d hd => h d (List.mem_cons_of_mem _ hd)
    rw [collapse_newlines_go, if_pos hx] at hc
    refine ih _ (fun d hd => ?_) hxs c hc
    rcases List.mem_append.mp hd with hm | hm
    · exact hrun d hm
    · rw [List.mem_singleton] at hm
      subst hm
      exact hx

/-- On all-whitespace input the bullet scanner in its plain state is the
identity: whitespace is never a bullet glyph. -/
theorem bullet_sub_all_ws (s : PyStr) :
    ∀ pv : Bool, (∀ c ∈ s, isPySpace c) → bullet_sub_go false pv s = s := by
  induction s with
  | nil => intro pv _; rw [bullet_sub_go]
  | cons x xs ih =>
    intro pv h
    have hx := h x (List.mem_cons_self _ _)
    have hxs := fun d hd => h d (List.mem_cons_of_mem _ hd)
    rw [bullet_sub_go]
    rw [if_neg (by simp), if_neg (by simp [pySpace_not_bullet x hx])]
    rw [ih _ hxs]

/-- On all-whitespace input the punctuation scanner flushes its buffered
run and the input unchanged: whitespace is never punctuation. -/
theorem space_punct_all_ws (s : PyStr) :
    ∀ run : PyStr, (∀ c ∈ s, isPySpace c) → space_punct_go run s = run ++ s := by
  induction s with
  | nil => intro run _; rw [space_punct_go, List.append_nil]
  | cons x xs ih =>
    intro run h
    have hx := h x (List.mem_cons_self _ _)
    have hxs := fun d hd => h d (List.mem_cons_of_mem _ hd)
    rw [space_punct_go, if_pos hx, ih _ hxs]
    simp

/-- Stripping an all-whitespace string leaves nothing. -/
theorem py_strip_all_ws (s : PyStr) (h : ∀ c ∈ s, isPySpace c) :
    py_strip s = [] := by
  unfold py_strip
  have h1 : s.dropWhile isPySpace = [] := List.dropWhile_eq_nil_iff.mpr h
  rw [h1]
  rfl

/-- Normalizing an all-whitespace text yields the empty string. -/
theorem normalize_text_all_ws (b : Bool) (s : PyStr) (h : ∀ c ∈ s, isPySpace c) :
    normalize_text b s = [] := by
  simp only [normalize_text]
  rw [html_unescape_all_ws s h]
  set s2 := s.filter (fun c => !isZeroWidth c) with hs2
  have h2 : ∀ c ∈ s2, isPySpace c := fun c hc => h c (List.mem_filter.mp hc).1
  set s3 := s2.map (fun c => if c == '\xa0' then ' ' else c) with hs3
  have h3 : ∀ c ∈ s3, isPySpace c := by
    intro c hc
    rw [hs3, List.mem_map] at hc
    obtain ⟨d, hd, rfl⟩ := hc
    split
    · decide
    · exact h2 d hd
  set s4 := collapse_spaces_go false s3 with hs4
  have h4 : ∀ c ∈ s4, isPySpace c := collapse_spaces_all_ws s3 false h3
  set s5 := (replace_crlf s4).map (fun c => if c == '\r' then '\n' else c) with hs5
  have h5 : ∀ c ∈ s5, isPySpace c := by
    intro c hc
    rw [hs5, List.mem_map] at hc
    obtain ⟨d, hd, rfl⟩ := hc
    have hd2 : isPySpace d = true := by
      rcases replace_crlf_mem s4 d hd with hm | rfl
      · exact h4 d hm
      · decide
    split
    · decide
    · exact hd2
  set s6 := collapse_newlines_go [] s5 with hs6
  have h6 : ∀ c ∈ s6, isPySpace c :=
    collapse_newlines_all_ws s5 [] (by simp) h5
  split
  · rw [bullet_sub_all_ws s6 true h6, space_punct_all_ws s6 [] h6,
      List.nil_append]
    exact py_strip_all_ws s6 h6
  · rw [space_punct_all_ws s6 [] h6, List.nil_append]
    exact py_strip_all_ws s6 h6

/-- Under all-whitespace sections and plain text, the section iterator
falls back to the synthetic plain-text section: every section's text strips
to nothing, so the filtered list is empty. -/
theorem section_iter_all_ws_eq (a : ArticleParsed)
    (hsec : ∀ l, a.sections = some l → ∀ sec ∈ l, ∀ c ∈ sec.text, isPySpace c) :
    section_iter a = [(0, pyStr "(no_heading)", a.plain_text.getD [])] := by
  unfold section_iter
  cases hs : a.sections with
  | none => rfl
  | some secs =>
    dsimp only
    split
    · have hnil : (secs.enum.filterMap fun p =>
          if py_strip p.2.text ≠ [] then some (p.1, p.2.heading.getD [], p.2.text)
          else none) = [] := by
        refine List.filterMap_eq_nil_iff.mpr ?_
        intro p hp
        rw [if_neg]
        intro hne
        exact hne (py_strip_all_ws _ (hsec secs hs p.2 (List.snd_mem_of_mem_enum hp)))
      rw [hnil]
      simp
    · rfl

/-- Under all-whitespace sections and plain text, every entry the section
iterator yields carries an all-whitespace text. -/
theorem section_iter_all_ws (a : ArticleParsed)
    (hsec : ∀ l, a.sections = some l → ∀ sec ∈ l, ∀ c ∈ sec.text, isPySpace c)
    (hplain : ∀ p, a.plain_text = some p → ∀ c ∈ p, isPySpace c) :
    ∀ e ∈ section_iter a, ∀ c ∈ e.2.2, isPySpace c := by
  have hfb : ∀ c ∈ a.plain_text.getD [], isPySpace c := by
    cases hp : a.plain_text with
    | none => simp
    | some p => simpa using hplain p hp
  intro e he c hc
  rw [section_iter_all_ws_eq a hsec, List.mem_singleton] at he
  subst he
  exact hfb c hc

/-- The chunk builder yields nothing when every entry normalizes to the
empty string. -/
theorem build_chunks_of_norm_nil (b : Bool) (a : ArticleParsed)
    (slug srcHash : PyStr) (cs co cm : Nat) (entries : List (Nat × PyStr × PyStr)) :
    ∀ k : Nat, (∀ e ∈ entries, normalize_text b e.2.2 = []) →
      build_chunks b a slug srcHash cs co cm entries k = [] := by
  induction entries with
  | nil => intro k _; rw [build_chunks]
  | cons e es ih =>
    intro k h
    obtain ⟨secIdx, heading, rawText⟩ := e
    have hn : normalize_text b rawText = [] :=
      h (secIdx, heading, rawText) (List.mem_cons_self _ _)
    rw [build_chunks, if_pos hn]
    exact ih _ (fun e2 he2 => h e2 (List.mem_cons_of_mem _ he2))

/-- C8 (amended): for every article whose URL parses (urlsplit can raise
ValueError before the section loop — see the counterexample), an article
with neither non-whitespace sections nor non-whitespace plain text chunks
to the empty list rather than raising: all-whitespace section texts are
filtered out, the whitespace plain-text fallback normalizes to nothing,
and the skipped section produces no chunks. -/
theorem chunk_article_c8_empty (b : Bool) (a : ArticleParsed) (cs co cm : Nat)
    (hurl : (urlsplit a.url).isSome = true)
    (hsec : ∀ l, a.sections = some l → ∀ sec ∈ l, ∀ c ∈ sec.text, isPySpace c)
    (hplain : ∀ p, a.plain_text = some p → ∀ c ∈ p, isPySpace c) :
    chunk_article b a cs co cm = some [] := by
  obtain ⟨parts, hp⟩ := Option.isSome_iff_exists.mp hurl
  unfold chunk_article slug_from_url
  rw [hp, Option.map_some', Option.map_some', Option.some.injEq]
  refine build_chunks_of_norm_nil b a _ a.source_hash cs co cm _ 0 ?_
  intro e he
  exact normalize_text_all_ws b _ (section_iter_all_ws a hsec hplain e he)

/-- Witness for C8: an article whose single section text and plain text
are whitespace produces the empty chunk list. -/
theorem chunk_article_c8_empty_witness :
    (urlsplit c8WitnessArticle.url).isSome = true ∧
    chunk_article true c8WitnessArticle 1400 200 300 = some [] :=
  ⟨by decide,
    chunk_article_c8_empty true c8WitnessArticle 1400 200 300 (by decide)
      (by
        intro l hl
        simp only [c8WitnessArticle, Option.some.injEq] at hl
        subst hl
        decide)
      (by
        intro p hp
        simp only [c8WitnessArticle, Option.some.injEq] at hp
        subst hp
        decide)⟩

/-- C8 counterexample: an article with no sections and no plain text whose
URL contains an unmatched square bracket — chunk_article propagates
urlsplit's ValueError (modelled as none) instead of returning zero chunks,
refuting the claim for every such article. -/
theorem chunk_article_c8_cex :
    chunk_article true c8CexArticle 1400 200 300 = none ∧
    c8CexArticle.sections = none ∧ c8CexArticle.plain_text = none := by
  refine ⟨by decide, rfl, rfl⟩

/-- Invariant of the crawl loop: along any run, the trace of fetched URLs
stays duplicate-free, every fetched URL is already marked visited, and the
visited set only grows. -/
theorem crawl_loop_invariant (o : CrawlOracle) (mp : Nat) (force da : Bool) :
    ∀ (fuel : Nat) (st : CrawlState),
      st.fetched.Nodup → (∀ u ∈ st.fetched, u ∈ st.visited) →
      ((crawl_loop o mp force da fuel st).fetched.Nodup ∧
       (∀ u ∈ (crawl_loop o mp force da fuel st).fetched,
          u ∈ (crawl_loop o mp force da fuel st).visited) ∧
       ∀ v ∈ st.visited, v ∈ (crawl_loop o mp force da fuel st).visited) := by
  intro fuel
  induction fuel with
  | zero =>
    intro st h1 h2
    rw [crawl_loop]
    exact ⟨h1, h2, fun v hv => hv⟩
  | succ n ih =>
    intro st h1 h2
    rw [crawl_loop]
    cases hq : st.queue with
    | nil => exact ⟨h1, h2, fun v hv => hv⟩
    | cons head rest =>
      obtain ⟨url, category⟩ := head
      dsimp only
      cases hc : canonicalize_url url with
      | none => exact ⟨h1, h2, fun v hv => hv⟩
      | some u =>
        dsimp only
        by_cases hvis : u ∈ st.visited
        · rw [if_pos hvis]
          obtain ⟨ha, hb, hcc⟩ := ih { st with queue := rest } h1 h2
          exact ⟨ha, hb, hcc⟩
        · rw [if_neg hvis]
          have h2l : ∀ w ∈ st.fetched, w ∈ u :: st.visited :=
            fun w hw => List.mem_cons_of_mem _ (h2 w hw)
          by_cases hmax : mp ≠ 0 ∧ mp ≤ st.downloaded
          · rw [if_pos hmax]
            exact ⟨h1, h2l, fun v hv => List.mem_cons_of_mem _ hv⟩
          · rw [if_neg hmax]
            cases hs : slug_from_url u with
            | none => exact ⟨h1, h2l, fun v hv => List.mem_cons_of_mem _ hv⟩
            | some slug =>
              dsimp only
              by_cases hskip : (slug ∈ o.preexisting ∨ slug ∈ st.written) ∧ ¬force
              · rw [if_pos hskip]
                obtain ⟨ha, hb, hcc⟩ :=
                  ih { st with
                       queue := rest
                       visited := u :: st.visited
                       skipped := st.skipped + 1 } h1 h2l
                exact ⟨ha, hb, fun v hv => hcc v (List.mem_cons_of_mem _ hv)⟩
              · rw [if_neg hskip]
                have hnodup : (st.fetched ++ [u]).Nodup := by
                  rw [List.nodup_append]
                  refine ⟨h1, List.nodup_singleton u, ?_⟩
                  intro w hw hwu
                  rw [List.mem_singleton] at hwu
                  subst hwu
                  exact hvis (h2 w hw)
                have hmark : ∀ w ∈ st.fetched ++ [u], w ∈ u :: st.visited := by
                  intro w hw
                  rcases List.mem_append.mp hw with hw | hw
                  · exact List.mem_cons_of_mem _ (h2 w hw)
                  · rw [List.mem_singleton] at hw
                    subst hw
                    exact List.mem_cons_self _ _
                cases hf : o.fetch u with
                | failure err status =>
                  obtain ⟨ha, hb, hcc⟩ :=
                    ih { st with
                         queue := rest
                         visited := u :: st.visited
                         fetched := st.fetched ++ [u]
                         errors := st.errors + 1
                         failed_urls := st.failed_urls ++ [(u, err, status)] }
                      hnodup hmark
                  exact ⟨ha, hb, fun v hv => hcc v (List.mem_cons_of_mem _ hv)⟩
                | ok outbound =>
                  obtain ⟨ha, hb, hcc⟩ :=
                    ih { st with
                         queue := rest ++
                           (outbound.filter fun l => l ∉ u :: st.visited).map
                             fun l => (l, category)
                         visited := u :: st.visited
                         fetched := st.fetched ++ [u]
                         assets := st.assets + (if da then o.assetCount u else 0)
                         written := st.written ++ [slug]
                         downloaded := st.downloaded + 1 } hnodup hmark
                  exact ⟨ha, hb, fun v hv => hcc v (List.mem_cons_of_mem _ hv)⟩

/-- The crawl loop never removes entries from the visited set. -/
theorem crawl_loop_visited_mono (o : CrawlOracle) (mp : Nat) (force da : Bool) :
    ∀ (fuel : Nat) (st : CrawlState), ∀ v ∈ st.visited,
      v ∈ (crawl_loop o mp force da fuel st).visited := by
  intro fuel
  induction fuel with
  | zero => intro st v hv; rw [crawl_loop]; exact hv
  | succ n ih =>
    intro st v hv
    rw [crawl_loop]
    cases hq : st.queue with
    | nil => exact hv
    | cons head rest =>
      obtain ⟨url, category⟩ := head
      dsimp only
      cases hc : canonicalize_url url with
      | none => exact hv
      | some u =>
        dsimp only
        by_cases hvis : u ∈ st.visited
        · rw [if_pos hvis]
          exact ih { st with queue := rest } v hv
        · rw [if_neg hvis]
          by_cases hmax : mp ≠ 0 ∧ mp ≤ st.downloaded
          · rw [if_pos hmax]
            exact List.mem_cons_of_mem _ hv
          · rw [if_neg hmax]
            cases hs : slug_from_url u with
            | none => exact List.mem_cons_of_mem _ hv
            | some slug =>
              dsimp only
              by_cases hskip : (slug ∈ o.preexisting ∨ slug ∈ st.written) ∧ ¬force
              · rw [if_pos hskip]
                exact ih { st with
                           queue := rest
                           visited := u :: st.visited
                           skipped := st.skipped + 1 } v (List.mem_cons_of_mem _ hv)
              · rw [if_neg hskip]
                cases hf : o.fetch u with
                | failure err status =>
                  exact ih { st with
                             queue := rest
                             visited := u :: st.visited
                             fetched := st.fetched ++ [u]
                             errors := st.errors + 1
                             failed_urls := st.failed_urls ++ [(u, err, status)] }
                    v (List.mem_cons_of_mem _ hv)
                | ok outbound =>
                  exact ih { st with
                             queue := rest ++
                               (outbound.filter fun l => l ∉ u :: st.visited).map
                                 fun l => (l, category)
                             visited := u :: st.visited
                             fetched := st.fetched ++ [u]
                             assets := st.assets + (if da then o.assetCount u else 0)
                             written := st.written ++ [slug]
                             downloaded := st.downloaded + 1 }
                    v (List.mem_cons_of_mem _ hv)

/-- C6: no canonical URL is fetched twice within a run — starting from any
seeded initial state the trace of fetched canonical URLs is duplicate-free
and each fetched URL ends up in the visited set (mark-before-fetch) — the
visited set only ever grows, and on the concrete two-page site the run
fetches each canonical URL exactly once. -/
theorem crawl_c6_no_refetch :
    (∀ (o : CrawlOracle) (mp : Nat) (force da : Bool) (fuel : Nat)
       (seed : List (PyStr × PyStr)),
       (crawl_loop o mp force da fuel (initCrawlState seed)).fetched.Nodup ∧
       ∀ u ∈ (crawl_loop o mp force da fuel (initCrawlState seed)).fetched,
         u ∈ (crawl_loop o mp force da fuel (initCrawlState seed)).visited) ∧
    (∀ (o : CrawlOracle) (mp : Nat) (force da : Bool) (fuel : Nat)
       (st : CrawlState), ∀ v ∈ st.visited,
       v ∈ (crawl_loop o mp force da fuel st).visited) ∧
    (crawl_loop c6Oracle 0 false false 6 (initCrawlState c6Seed)).fetched =
      [pyStr "https://a/b/", pyStr "https://a/c/"] := by
  refine ⟨fun o mp force da fuel seed => ?_, crawl_loop_visited_mono, ?_⟩
  · have h := crawl_loop_invariant o mp force da fuel (initCrawlState seed)
      List.nodup_nil (fun u hu => absurd hu (List.not_mem_nil u))
    exact ⟨h.1, h.2.1⟩
  · simp [crawl_loop, c6Oracle, c6Seed, initCrawlState, canonicalize_url,
      urlsplit, urlunsplit, canonical_path, uses_netloc, rstrip_char,
      split_at_first, slug_from_url, py_split, py_split_go, sanitize_slug_go,
      strip_dash, pyStr, isSchemeChar, isSlugChar]

/-- Witness for C6 at the concrete oracle: the first fetched canonical URL
of the run is indeed marked visited by the end of the run. -/
theorem crawl_c6_no_refetch_witness :
    pyStr "https://a/b/" ∈
      (crawl_loop c6Oracle 0 false false 6 (initCrawlState c6Seed)).visited := by
  apply (crawl_c6_no_refetch.1 c6Oracle 0 false false 6 c6Seed).2
  rw [crawl_c6_no_refetch.2.2]
  exact List.mem_cons_self _ _

/-- Decimal renderings are never the empty string. -/
theorem decimalRepr_ne_nil (n : Nat) : decimalRepr n ≠ [] := by
  rw [decimalRepr]
  split
  · simp
  · simp

/-- The vertical bar never occurs among the digits of a decimal rendering. -/
theorem bar_not_mem_decimalRepr (n : Nat) : '|' ∉ decimalRepr n := by
  induction n using Nat.strong_induction_on with
  | _ n ih =>
    rw [decimalRepr]
    split
    · rename_i h
      interval_cases n <;> decide
    · rename_i h
      intro hmem
      rcases List.mem_append.mp hmem with hm | hm
      · exact ih (n / 10) (Nat.div_lt_self (by omega) (by omega)) hm
      · have h10 : n % 10 < 10 := Nat.mod_lt _ (by omega)
        rw [List.mem_singleton] at hm
        generalize hk : n % 10 = k at h10 hm
        interval_cases k <;> exact absurd hm (by decide)

/-- Digit characters of distinct digits are distinct. -/
theorem digitChar_inj_lt (m n : Nat) (hm : m < 10) (hn : n < 10)
    (h : digitChar m = digitChar n) : m = n := by
  interval_cases m <;> interval_cases n <;> revert h <;> decide

/-- Decimal rendering is injective. -/
theorem decimalRepr_inj : ∀ m n : Nat, decimalRepr m = decimalRepr n → m = n := by
  intro m
  induction m using Nat.strong_induction_on with
  | _ m ih =>
    intro n h
    by_cases hm : m < 10 <;> by_cases hn : n < 10
    · rw [decimalRepr, if_pos hm, decimalRepr, if_pos hn] at h
      exact digitChar_inj_lt m n hm hn (List.cons_eq_cons.mp h).1
    · rw [decimalRepr, if_pos hm, decimalRepr, if_neg hn] at h
      have hl := congrArg List.length h
      simp only [List.length_cons, List.length_nil, List.length_append] at hl
      have h0 : (decimalRepr (n / 10)).length = 0 := by omega
      exact absurd (List.length_eq_zero.mp h0) (decimalRepr_ne_nil _)
    · rw [decimalRepr, if_neg hm] at h
      nth_rewrite 2 [decimalRepr] at h
      rw [if_pos hn] at h
      have hl := congrArg List.length h
      simp only [List.length_cons, List.length_nil, List.length_append] at hl
      have h0 : (decimalRepr (m / 10)).length = 0 := by omega
      exact absurd (List.length_eq_zero.mp h0) (decimalRepr_ne_nil _)
    · rw [decimalRepr, if_neg hm] at h
      nth_rewrite 2 [decimalRepr] at h
      rw [if_neg hn] at h
      obtain ⟨h1, h2⟩ := List.append_inj' h rfl
      have hdiv : m / 10 = n / 10 :=
        ih (m / 10) (Nat.div_lt_self (by omega) (by omega)) (n / 10) h1
      have hmod : m % 10 = n % 10 :=
        digitChar_inj_lt _ _ (Nat.mod_lt _ (by omega)) (Nat.mod_lt _ (by omega))
          (List.cons_eq_cons.mp h2).1
      omega

/-- takeWhile over a list whose head part all satisfies the predicate and
whose next element fails it returns exactly the head part. -/
theorem takeWhile_append_stop (p : Char → Bool) (l1 : List Char) (c : Char)
    (l2 : List Char) (h : ∀ x ∈ l1, p x = true) (hc : p c = false) :
    (l1 ++ c :: l2).takeWhile p = l1 := by
  induction l1 with
  | nil => simp [List.takeWhile_cons, hc]
  | cons a l ih =>
    have ha : p a = true := h a (List.mem_cons_self _ _)
    simp [List.takeWhile_cons, ha,
          ih (fun x hx => h x (List.mem_cons_of_mem _ hx))]

/-- Text after the last bar of a string ending in a bar-free suffix. -/
theorem last_bar_suffix_append (a d : PyStr) (hd : '|' ∉ d) :
    last_bar_suffix (a ++ '|' :: d) = d := by
  unfold last_bar_suffix
  have hrev : (a ++ '|' :: d).reverse = d.reverse ++ '|' :: a.reverse := by
    simp
  rw [hrev, takeWhile_append_stop _ _ _ _ ?ha ?hc, List.reverse_reverse]
  case ha =>
    intro x hx
    have hxd : x ∈ d := List.mem_reverse.mp hx
    simp only [decide_eq_true_eq]
    exact fun he => hd (he ▸ hxd)
  case hc => simp

/-- The chunk counter can be read back off a chunk id as the digits after
its last bar. -/
theorem last_bar_suffix_chunk_id (locale slug : PyStr) (i c : Nat) :
    last_bar_suffix (chunk_id locale slug i c) = decimalRepr c := by
  have hsplit : chunk_id locale slug i c =
      (locale ++ '|' :: slug ++ '|' :: decimalRepr i) ++ '|' :: decimalRepr c := by
    simp [chunk_id]
  rw [hsplit, last_bar_suffix_append _ _ (bar_not_mem_decimalRepr c)]

/-- range' unfolding for a successor length. -/
theorem range_cons_eq (k n : Nat) : List.range' k (n + 1) = k :: List.range' (k + 1) n := rfl

/-- The inner emission loop writes the running counter values in order into
the chunk indices. -/
theorem emit_map_index (a : ArticleParsed) (slug srcHash : PyStr) (i : Nat) (hd : PyStr) :
    ∀ (ts : List PyStr) (k : Nat),
      (emit_section_chunks a slug srcHash i hd ts k).map
          (fun c => c.metadata.chunk_index) = List.range' k ts.length := by
  intro ts
  induction ts with
  | nil => intro k; rw [emit_section_chunks]; rfl
  | cons t ts ih =>
    intro k
    rw [emit_section_chunks]
    simp only [List.map_cons, List.length_cons, range_cons_eq]
    exact congrArg (_ :: ·) (ih (k + 1))

/-- The inner emission loop emits one chunk per input text. -/
theorem emit_length (a : ArticleParsed) (slug srcHash : PyStr) (i : Nat) (hd : PyStr)
    (ts : List PyStr) (k : Nat) :
    (emit_section_chunks a slug srcHash i hd ts k).length = ts.length := by
  have h := congrArg List.length (emit_map_index a slug srcHash i hd ts k)
  simpa using h

/-- Reading the counters back off the ids of the inner emission loop gives
the running counter values in order. -/
theorem emit_map_bar (a : ArticleParsed) (slug srcHash : PyStr) (i : Nat) (hd : PyStr) :
    ∀ (ts : List PyStr) (k : Nat),
      (emit_section_chunks a slug srcHash i hd ts k).map
          (fun c => last_bar_suffix c.id) =
        (List.range' k ts.length).map decimalRepr := by
  intro ts
  induction ts with
  | nil => intro k; rw [emit_section_chunks]; rfl
  | cons t ts ih =>
    intro k
    rw [emit_section_chunks]
    simp only [List.map_cons, List.length_cons, range_cons_eq]
    exact congrArg₂ (· :: ·) (last_bar_suffix_chunk_id a.locale slug i k) (ih (k + 1))

/-- Every chunk of the inner emission loop carries an id built from its own
section index and its own chunk counter. -/
theorem emit_id_form (a : ArticleParsed) (slug srcHash : PyStr) (i : Nat) (hd : PyStr) :
    ∀ (ts : List PyStr) (k : Nat),
      ∀ ch ∈ emit_section_chunks a slug srcHash i hd ts k,
        ch.id = chunk_id a.locale slug i ch.metadata.chunk_index := by
  intro ts
  induction ts with
  | nil =>
    intro k ch hch
    rw [emit_section_chunks] at hch
    exact absurd hch (List.not_mem_nil ch)
  | cons t ts ih =>
    intro k ch hch
    rw [emit_section_chunks] at hch
    rcases List.mem_cons.mp hch with h | h
    · subst h; rfl
    · exact ih (k + 1) ch h

/-- Concatenating adjacent counter ranges. -/
theorem range_concat_eq : ∀ (m k n : Nat),
    List.range' k m ++ List.range' (k + m) n = List.range' k (m + n) := by
  intro m
  induction m with
  | zero => intro k n; simp
  | succ m ih =>
    intro k n
    rw [range_cons_eq, List.cons_append]
    have he : k + (m + 1) = (k + 1) + m := by omega
    rw [he, ih (k + 1) n]
    have h2 : m + 1 + n = (m + n) + 1 := by omega
    rw [h2, range_cons_eq]

/-- The outer chunk-building loop writes consecutive counter values,
starting from the incoming counter, into the chunk indices. -/
theorem build_map_index (b : Bool) (a : ArticleParsed) (slug srcHash : PyStr)
    (cs co cm : Nat) :
    ∀ (entries : List (Nat × PyStr × PyStr)) (k : Nat),
      (build_chunks b a slug srcHash cs co cm entries k).map
          (fun c => c.metadata.chunk_index) =
        List.range' k (build_chunks b a slug srcHash cs co cm entries k).length := by
  intro entries
  induction entries with
  | nil => intro k; rw [build_chunks]; rfl
  | cons e es ih =>
    intro k
    obtain ⟨secIdx, heading, rawText⟩ := e
    rw [build_chunks]
    split
    · exact ih k
    · simp only [List.map_append, List.length_append, emit_map_index, emit_length, ih]
      exact range_concat_eq _ _ _

/-- Reading the counters back off the ids written by the outer loop gives
the same consecutive counter values. -/
theorem build_map_bar (b : Bool) (a : ArticleParsed) (slug srcHash : PyStr)
    (cs co cm : Nat) :
    ∀ (entries : List (Nat × PyStr × PyStr)) (k : Nat),
      (build_chunks b a slug srcHash cs co cm entries k).map
          (fun c => last_bar_suffix c.id) =
        (List.range' k (build_chunks b a slug srcHash cs co cm entries k).length).map
          decimalRepr := by
  intro entries
  induction entries with
  | nil => intro k; rw [build_chunks]; rfl
  | cons e es ih =>
    intro k
    obtain ⟨secIdx, heading, rawText⟩ := e
    rw [build_chunks]
    split
    · exact ih k
    · simp only [List.map_append, List.length_append, emit_map_bar, emit_length, ih]
      rw [← List.map_append, range_concat_eq]

/-- Every chunk the outer loop emits has an id built from the article
locale, the slug, some section index and the chunk's own counter. -/
theorem build_id_form (b : Bool) (a : ArticleParsed) (slug srcHash : PyStr)
    (cs co cm : Nat) :
    ∀ (entries : List (Nat × PyStr × PyStr)) (k : Nat),
      ∀ ch ∈ build_chunks b a slug srcHash cs co cm entries k,
        ∃ secIdx, ch.id = chunk_id a.locale slug secIdx ch.metadata.chunk_index := by
  intro entries
  induction entries with
  | nil =>
    intro k ch hch
    rw [build_chunks] at hch
    exact absurd hch (List.not_mem_nil ch)
  | cons e es ih =>
    intro k ch hch
    obtain ⟨secIdx, heading, rawText⟩ := e
    rw [build_chunks] at hch
    split at hch
    · exact ih k ch hch
    · rcases List.mem_append.mp hch with h | h
      · exact ⟨secIdx, emit_id_form a slug srcHash secIdx heading _ _ ch h⟩
      · exact ih _ ch h

/-- C7: whenever chunk_article returns a chunk list, the chunk_index
metadata values match emission order exactly (0, 1, 2, ... across the whole
article, not per section), the chunk ids are pairwise distinct, and every
id has the form locale|slug|sectionIdx|chunkIdx built from the article's
slug and the chunk's own running counter. -/
theorem chunk_article_c7_ids (b : Bool) (a : ArticleParsed) (cs co cm : Nat)
    (out : List Chunk) (h : chunk_article b a cs co cm = some out) :
    (out.map fun c => c.metadata.chunk_index) = List.range out.length ∧
    (out.map Chunk.id).Nodup ∧
    ∃ slug, slug_from_url a.url = some slug ∧
      ∀ ch ∈ out, ∃ secIdx,
        ch.id = chunk_id a.locale slug secIdx ch.metadata.chunk_index := by
  unfold chunk_article at h
  match hslug : slug_from_url a.url, h with
  | some slug, h =>
    simp only [Option.map_some', Option.some.injEq] at h
    subst h
    refine ⟨?_, ?_, slug, rfl,
      build_id_form b a slug a.source_hash cs co cm _ 0⟩
    · rw [List.range_eq_range']
      exact build_map_index b a slug a.source_hash cs co cm _ 0
    · have hbar :
          ((build_chunks b a slug a.source_hash cs co cm (section_iter a) 0).map
              Chunk.id).map last_bar_suffix =
            (List.range' 0 (build_chunks b a slug a.source_hash cs co cm
              (section_iter a) 0).length).map decimalRepr := by
        rw [List.map_map]
        exact build_map_bar b a slug a.source_hash cs co cm _ 0
      have hnd :
          (((build_chunks b a slug a.source_hash cs co cm (section_iter a) 0).map
              Chunk.id).map last_bar_suffix).Nodup := by
        rw [hbar, ← List.range_eq_range']
        exact (List.nodup_range _).map (fun m n => decimalRepr_inj m n)
      exact hnd.of_map _

/-- Witness for C7: the two-section article yields two chunks with indices
0 and 1, distinct ids and ids of the documented shape. -/
theorem chunk_article_c7_ids_witness :
    ∃ out, chunk_article true c7Article 20 0 3 = some out ∧
      ((out.map fun c => c.metadata.chunk_index) = List.range out.length ∧
       (out.map Chunk.id).Nodup ∧
       ∃ slug, slug_from_url c7Article.url = some slug ∧
         ∀ ch ∈ out, ∃ secIdx,
           ch.id = chunk_id c7Article.locale slug secIdx ch.metadata.chunk_index) := by
  have he : chunk_article true c7Article 20 0 3 = some
      [{ id := pyStr "ru|how-to-pay|0|0", text := pyStr "aaaaa bbbbb", metadata :=
         { source_url := pyStr "https://avto.pro/helpcenter/pay/how-to-pay/"
           locale := pyStr "ru", site_code := pyStr "ru", category := pyStr "Pay"
           doc_title := pyStr "T", section_heading := pyStr "Intro"
           chunk_index := 0, char_len := 11, source_hash := pyStr "h2" } },
       { id := pyStr "ru|how-to-pay|1|1", text := pyStr "ccccc", metadata :=
         { source_url := pyStr "https://avto.pro/helpcenter/pay/how-to-pay/"
           locale := pyStr "ru", site_code := pyStr "ru", category := pyStr "Pay"
           doc_title := pyStr "T", section_heading := pyStr "More"
           chunk_index := 1, char_len := 5, source_hash := pyStr "h2" } }] := by
    simp [chunk_article, c7Article, section_iter, build_chunks, emit_section_chunks,
          chunk_id, decimalRepr, digitChar, slug_from_url, urlsplit, split_at_first,
          py_split, py_split_go, pyStr, normalize_text, html_unescape,
          collapse_spaces_go, replace_crlf, collapse_newlines_go, flush_ws_run,
          countNewlines, bullet_sub_go, space_punct_go, py_strip, isPySpace,
          isZeroWidth, isBullet, isPunct, ArticleParsed.source_hash,
          section_chunks, split_by_separators, split_parts_go, window_slices,
          apply_overlap, overlap_go, merge_small, DEFAULT_SEPARATORS,
          sanitize_slug_go, strip_dash, isSlugChar, isSchemeChar]
  exact ⟨_, he, chunk_article_c7_ids true c7Article 20 0 3 _ he⟩

/-- Characters are determined by their code points. -/
theorem char_toNat_inj (c d : Char) (h : c.toNat = d.toNat) : c = d :=
  Char.ext (UInt32.ext h)

/-- Code point of Char.ofNat below the surrogate range. -/
theorem toNat_ofNat_valid (n : Nat) (h : n < 55296) : (Char.ofNat n).toNat = n := by
  simp [Char.ofNat, Nat.isValidChar, Char.ofNatAux, Char.toNat, UInt32.toNat, h,
        BitVec.toNat_ofNatLt]

/-- Numeric footprint of Char.isAlpha. -/
theorem isAlpha_toNat (c : Char) :
    c.isAlpha = true ↔
      (65 ≤ c.toNat ∧ c.toNat ≤ 90) ∨ (97 ≤ c.toNat ∧ c.toNat ≤ 122) := by
  simp only [Char.isAlpha, Char.isUpper, Char.isLower, Bool.or_eq_true,
    Bool.and_eq_true, decide_eq_true_eq]
  constructor
  · rintro (⟨h1, h2⟩ | ⟨h1, h2⟩)
    · exact Or.inl ⟨h1, h2⟩
    · exact Or.inr ⟨h1, h2⟩
  · rintro (⟨h1, h2⟩ | ⟨h1, h2⟩)
    · exact Or.inl ⟨h1, h2⟩
    · exact Or.inr ⟨h1, h2⟩

/-- Numeric footprint of Char.isDigit. -/
theorem isDigit_toNat (c : Char) :
    c.isDigit = true ↔ 48 ≤ c.toNat ∧ c.toNat ≤ 57 := by
  simp only [Char.isDigit, Bool.and_eq_true, decide_eq_true_eq]
  constructor
  · rintro ⟨h1, h2⟩; exact ⟨h1, h2⟩
  · rintro ⟨h1, h2⟩; exact ⟨h1, h2⟩

/-- Numeric footprint of the scheme-character class. -/
theorem isSchemeChar_toNat (c : Char) :
    isSchemeChar c = true ↔
      (65 ≤ c.toNat ∧ c.toNat ≤ 90) ∨ (97 ≤ c.toNat ∧ c.toNat ≤ 122) ∨
      (48 ≤ c.toNat ∧ c.toNat ≤ 57) ∨ c.toNat = 43 ∨ c.toNat = 45 ∨
      c.toNat = 46 := by
  simp only [isSchemeChar, Bool.or_eq_true, beq_iff_eq]
  constructor
  · rintro ((((ha | hd) | rfl) | rfl) | rfl)
    · rcases (isAlpha_toNat c).mp ha with h | h
      · exact Or.inl h
      · exact Or.inr (Or.inl h)
    · exact Or.inr (Or.inr (Or.inl ((isDigit_toNat c).mp hd)))
    · exact Or.inr (Or.inr (Or.inr (Or.inl (by decide))))
    · exact Or.inr (Or.inr (Or.inr (Or.inr (Or.inl (by decide)))))
    · exact Or.inr (Or.inr (Or.inr (Or.inr (Or.inr (by decide)))))
  · rintro (h | h | h | h | h | h)
    · exact Or.inl (Or.inl (Or.inl (Or.inl ((isAlpha_toNat c).mpr (Or.inl h)))))
    · exact Or.inl (Or.inl (Or.inl (Or.inl ((isAlpha_toNat c).mpr (Or.inr h)))))
    · exact Or.inl (Or.inl (Or.inl (Or.inr ((isDigit_toNat c).mpr h))))
    · exact Or.inl (Or.inl (Or.inr (char_toNat_inj c '+' h)))
    · exact Or.inl (Or.inr (char_toNat_inj c '-' h))
    · exact Or.inr (char_toNat_inj c '.' h)

/-- Char.toLower adds 32 to an upper-case code point. -/
theorem toLower_upper_toNat (c : Char) (h1 : 65 ≤ c.toNat) (h2 : c.toNat ≤ 90) :
    c.toLower.toNat = c.toNat + 32 := by
  unfold Char.toLower
  dsimp only
  rw [if_pos ⟨h1, h2⟩]
  exact toNat_ofNat_valid _ (by omega)

/-- Char.toLower fixes anything outside the upper-case range. -/
theorem toLower_fix (c : Char) (h : ¬(65 ≤ c.toNat ∧ c.toNat ≤ 90)) :
    c.toLower = c := by
  unfold Char.toLower
  dsimp only
  rw [if_neg h]

/-- Scheme characters stay scheme characters under lowering, lowering is
idempotent on them, and alphabetic ones stay alphabetic. -/
theorem toLower_schemeChar (c : Char) (h : isSchemeChar c = true) :
    isSchemeChar c.toLower = true ∧ c.toLower.toLower = c.toLower ∧
      (c.isAlpha = true → c.toLower.isAlpha = true) := by
  by_cases hu : 65 ≤ c.toNat ∧ c.toNat ≤ 90
  · have ht := toLower_upper_toNat c hu.1 hu.2
    refine ⟨(isSchemeChar_toNat _).mpr (Or.inr (Or.inl (by omega))), ?_, ?_⟩
    · exact toLower_fix _ (by omega)
    · intro _
      exact (isAlpha_toNat _).mpr (Or.inr (by omega))
  · rw [toLower_fix c hu]
    exact ⟨h, toLower_fix c hu, fun ha => ha⟩

/-- split_at_first misses exactly when the separator does not occur. -/
theorem split_at_first_eq_none (c : Char) :
    ∀ s : PyStr, split_at_first c s = none ↔ c ∉ s := by
  intro s
  induction s with
  | nil => simp [split_at_first]
  | cons a rest ih =>
    rw [split_at_first]
    by_cases ha : a = c
    · subst ha
      simp
    · rw [if_neg ha]
      cases hr : split_at_first c rest with
      | none =>
        simp only [Option.map_none']
        simp [List.mem_cons, Ne.symm ha, ih.mp hr]
      | some p =>
        simp only [Option.map_some']
        constructor
        · intro hcon; exact absurd hcon (by simp)
        · intro hmem
          exfalso
          have : c ∈ rest := by
            by_contra hc
            rw [← ih] at hc
            rw [hc] at hr
            exact absurd hr (by simp)
          exact hmem (List.mem_cons_of_mem _ this)

/-- split_at_first finds the first separator occurrence. -/
theorem split_at_first_found (c : Char) :
    ∀ (a : PyStr), c ∉ a → ∀ b : PyStr, split_at_first c (a ++ c :: b) = some (a, b) := by
  intro a
  induction a with
  | nil => intro _ b; simp [split_at_first]
  | cons x xs ih =>
    intro hx b
    have hxc : ¬x = c := fun he => hx (he ▸ List.mem_cons_self _ _)
    rw [List.cons_append, split_at_first, if_neg hxc,
        ih (fun hm => hx (List.mem_cons_of_mem _ hm)) b]
    rfl

/-- A split decomposes the string at a separator absent from the head part. -/
theorem split_at_first_decomp (c : Char) :
    ∀ (s pre post : PyStr), split_at_first c s = some (pre, post) →
      s = pre ++ c :: post ∧ c ∉ pre := by
  intro s
  induction s with
  | nil => intro pre post h; exact absurd h (by simp [split_at_first])
  | cons a rest ih =>
    intro pre post h
    rw [split_at_first] at h
    by_cases ha : a = c
    · rw [if_pos ha] at h
      simp only [Option.some.injEq, Prod.mk.injEq] at h
      obtain ⟨h1, h2⟩ := h
      subst ha
      constructor
      · rw [← h1, ← h2]; rfl
      · rw [← h1]; exact List.not_mem_nil _
    · rw [if_neg ha] at h
      cases hr : split_at_first c rest with
      | none => rw [hr] at h; exact absurd h (by simp)
      | some p =>
        obtain ⟨q1, q2⟩ := p
        rw [hr] at h
        simp only [Option.map_some', Option.some.injEq, Prod.mk.injEq] at h
        obtain ⟨h1, h2⟩ := h
        have hrec := ih q1 q2 hr
        subst h1
        subst h2
        constructor
        · rw [List.cons_append, hrec.1]
        · intro hm
          rcases List.mem_cons.mp hm with he | hm2
          · exact ha he.symm
          · exact hrec.2 hm2

/-- Extending a string after a found separator keeps the head part. -/
theorem split_at_first_extend (c : Char) :
    ∀ (s pre post t : PyStr), split_at_first c s = some (pre, post) →
      split_at_first c (s ++ t) = some (pre, post ++ t) := by
  intro s pre post t h
  obtain ⟨hdec, hpre⟩ := split_at_first_decomp c s pre post h
  subst hdec
  rw [List.append_assoc, List.cons_append]
  exact split_at_first_found c pre hpre (post ++ t)

/-- The head surviving dropWhile fails the predicate. -/
theorem head_dropWhile_false (p : Char → Bool) :
    ∀ (l : List Char) (x : Char), (l.dropWhile p).head? = some x → p x = false := by
  intro l
  induction l with
  | nil => intro x h; exact absurd h (by simp)
  | cons a t ih =>
    intro x h
    rw [List.dropWhile_cons] at h
    by_cases ha : p a = true
    · rw [if_pos ha] at h
      exact ih x h
    · rw [if_neg ha] at h
      simp only [List.head?_cons, Option.some.injEq] at h
      subst h
      exact Bool.not_eq_true _ ▸ ha

/-- takeWhile keeps a list all of whose members pass the predicate. -/
theorem takeWhile_all_eq (p : Char → Bool) :
    ∀ l : List Char, (∀ x ∈ l, p x = true) → l.takeWhile p = l := by
  intro l
  induction l with
  | nil => intro _; rfl
  | cons a t ih =>
    intro h
    rw [List.takeWhile_cons, if_pos (h a (List.mem_cons_self _ _))]
    rw [ih (fun x hx => h x (List.mem_cons_of_mem _ hx))]

/-- filter keeps a list all of whose members pass the predicate. -/
theorem filter_all_eq (p : Char → Bool) :
    ∀ l : List Char, (∀ x ∈ l, p x = true) → l.filter p = l := by
  intro l
  induction l with
  | nil => intro _; rfl
  | cons a t ih =>
    intro h
    rw [List.filter_cons, if_pos (h a (List.mem_cons_self _ _))]
    rw [ih (fun x hx => h x (List.mem_cons_of_mem _ hx))]

/-- A string is its right strip followed by a run of the strip character. -/
theorem rstrip_char_decomp (ch : Char) (s : PyStr) :
    ∃ t, s = rstrip_char ch s ++ t ∧ ∀ c ∈ t, c = ch := by
  refine ⟨(s.reverse.takeWhile (fun c => c == ch)).reverse, ?_, ?_⟩
  · conv_lhs => rw [← List.reverse_reverse s,
      ← List.takeWhile_append_dropWhile (p := fun c => c == ch) (l := s.reverse)]
    rw [List.reverse_append]
    rfl
  · intro c hc
    rw [List.mem_reverse] at hc
    have := List.mem_takeWhile_imp hc
    exact eq_of_beq this

/-- A nonempty right strip never ends in the strip character. -/
theorem rstrip_char_getLast_ne (ch : Char) (s : PyStr)
    (h : rstrip_char ch s ≠ []) : (rstrip_char ch s).getLast? ≠ some ch := by
  unfold rstrip_char at h ⊢
  rw [List.getLast?_reverse]
  intro hc
  have := head_dropWhile_false (fun c => c == ch) s.reverse ch hc
  simp at this

/-- Right-stripping a string that does not end in the strip character is the
identity. -/
theorem rstrip_char_eq_self (ch : Char) (s : PyStr)
    (h : s.getLast? ≠ some ch) : rstrip_char ch s = s := by
  unfold rstrip_char
  cases hr : s.reverse with
  | nil =>
    have : s = [] := by simpa using congrArg List.reverse hr
    subst this
    rfl
  | cons a t =>
    have ha : a ≠ ch := by
      intro he
      apply h
      rw [← List.head?_reverse, hr, he]
      rfl
    rw [List.dropWhile_cons, if_neg (by simp [ha]), ← hr, List.reverse_reverse]

/-- Right-stripping absorbs one appended strip character. -/
theorem rstrip_char_append_same (ch : Char) (s : PyStr) :
    rstrip_char ch (s ++ [ch]) = rstrip_char ch s := by
  unfold rstrip_char
  rw [List.reverse_append]
  simp [List.dropWhile_cons]

/-- The canonical path always ends in exactly one slash. -/
theorem canonical_path_decomp (p : PyStr) :
    ∃ q, canonical_path p = q ++ ['/'] ∧ q.getLast? ≠ some '/' := by
  unfold canonical_path
  dsimp only
  by_cases h0 : rstrip_char '/' p = []
  · rw [h0]
    refine ⟨[], ?_, by simp⟩
    simp
  · have h1 : (if rstrip_char '/' p = [] then ['/'] else rstrip_char '/' p) =
        rstrip_char '/' p := if_neg h0
    rw [h1, if_pos (rstrip_char_getLast_ne '/' p h0)]
    exact ⟨rstrip_char '/' p, rfl, rstrip_char_getLast_ne '/' p h0⟩

/-- canonical_path of a slash-terminated string with no other trailing
slashes is the identity. -/
theorem canonical_path_of_decomp (q : PyStr) (h : q.getLast? ≠ some '/') :
    canonical_path (q ++ ['/']) = q ++ ['/'] := by
  unfold canonical_path
  dsimp only
  rw [rstrip_char_append_same, rstrip_char_eq_self '/' q h]
  by_cases hq : q = []
  · subst hq
    simp
  · have h1 : (if q = [] then ['/'] else q) = q := if_neg hq
    rw [h1, if_pos h]

/-- canonical_path is idempotent. -/
theorem canonical_path_idem (p : PyStr) :
    canonical_path (canonical_path p) = canonical_path p := by
  obtain ⟨q, hq, hlast⟩ := canonical_path_decomp p
  rw [hq, canonical_path_of_decomp q hlast]

/-- The canonical path is never empty. -/
theorem canonical_path_ne_nil (p : PyStr) : canonical_path p ≠ [] := by
  obtain ⟨q, hq, -⟩ := canonical_path_decomp p
  rw [hq]
  simp

/-- Every canonical-path character is a slash or a character of the path. -/
theorem canonical_path_mem (p : PyStr) :
    ∀ c ∈ canonical_path p, c = '/' ∨ c ∈ p := by
  intro c hc
  unfold canonical_path at hc
  dsimp only at hc
  have hsub : ∀ x ∈ rstrip_char '/' p, x ∈ p := by
    intro x hx
    unfold rstrip_char at hx
    rw [List.mem_reverse] at hx
    exact List.mem_reverse.mp ((List.dropWhile_sublist _).subset hx)
  by_cases h0 : rstrip_char '/' p = []
  · rw [h0] at hc
    simp at hc
    exact Or.inl hc
  · have h1 : (if rstrip_char '/' p = [] then ['/'] else rstrip_char '/' p) =
        rstrip_char '/' p := if_neg h0
    rw [h1] at hc
    split at hc
    · rcases List.mem_append.mp hc with hm | hm
      · exact Or.inr (hsub c hm)
      · rw [List.mem_singleton] at hm
        exact Or.inl hm
    · exact Or.inr (hsub c hc)

/-- The head of a nonempty canonical path is a slash or the path's own
head. -/
theorem canonical_path_head (p : PyStr) :
    (canonical_path p).headD ' ' = '/' ∨
      (p ≠ [] ∧ (canonical_path p).headD ' ' = p.headD ' ') := by
  unfold canonical_path
  dsimp only
  by_cases h0 : rstrip_char '/' p = []
  · rw [h0]
    left
    simp
  · have h1 : (if rstrip_char '/' p = [] then ['/'] else rstrip_char '/' p) =
        rstrip_char '/' p := if_neg h0
    rw [h1]
    obtain ⟨t, hdec, -⟩ := rstrip_char_decomp '/' p
    right
    cases hr : rstrip_char '/' p with
    | nil => exact absurd hr h0
    | cons a u =>
      rw [hr] at hdec
      rw [hdec]
      refine ⟨by simp, ?_⟩
      split
      · rfl
      · rfl

/-- Prefixing a slash preserves canonical-path fixpoints whose head is not
itself a slash. -/
theorem canonical_path_slash_cons (p : PyStr) (hcp : canonical_path p = p)
    (hh : p.headD ' ' ≠ '/') : canonical_path ('/' :: p) = '/' :: p := by
  obtain ⟨q, hq, hlast⟩ := canonical_path_decomp p
  rw [hcp] at hq
  have hqne : q ≠ [] := by
    intro he
    subst he
    rw [hq] at hh
    exact hh rfl
  have hlast2 : ('/' :: q).getLast? ≠ some '/' := by
    cases q with
    | nil => exact absurd rfl hqne
    | cons b u => rw [List.getLast?_cons_cons]; exact hlast
  have : '/' :: p = ('/' :: q) ++ ['/'] := by rw [hq]; rfl
  rw [this, canonical_path_of_decomp _ hlast2]

theorem canonical_path_eq (p : PyStr) :
    canonical_path p =
      (if rstrip_char '/' p = [] then [] else rstrip_char '/' p) ++ ['/'] := by
  unfold canonical_path
  dsimp only
  by_cases h0 : rstrip_char '/' p = []
  · rw [h0]
    simp
  · have h1 : (if rstrip_char '/' p = [] then ['/'] else rstrip_char '/' p) =
        rstrip_char '/' p := if_neg h0
    rw [h1, if_pos (rstrip_char_getLast_ne '/' p h0), if_neg h0]

/-- Failure of the scheme guard at the first colon carries over from a path
to its canonical form. -/
theorem no_scheme_colon_canonical (p : PyStr) (h : no_scheme_colon p) :
    no_scheme_colon (canonical_path p) := by
  rw [canonical_path_eq p]
  by_cases h0 : rstrip_char '/' p = []
  · rw [if_pos h0]
    unfold no_scheme_colon
    have : split_at_first ':' ([] ++ ['/']) = none :=
      (split_at_first_eq_none ':' _).mpr (by decide)
    rw [this]
    trivial
  · rw [if_neg h0]
    obtain ⟨t, hdec, hall⟩ := rstrip_char_decomp '/' p
    cases hsp : split_at_first ':' (rstrip_char '/' p) with
    | none =>
      unfold no_scheme_colon
      have hnm : ':' ∉ rstrip_char '/' p := (split_at_first_eq_none ':' _).mp hsp
      have : split_at_first ':' (rstrip_char '/' p ++ ['/']) = none := by
        rw [split_at_first_eq_none]
        intro hm
        rcases List.mem_append.mp hm with hm | hm
        · exact hnm hm
        · rw [List.mem_singleton] at hm
          exact absurd hm (by decide)
      rw [this]
      trivial
    | some pr =>
      obtain ⟨pre, post⟩ := pr
      have hext1 := split_at_first_extend ':' _ pre post ['/'] hsp
      have hext2 := split_at_first_extend ':' _ pre post t hsp
      rw [← hdec] at hext2
      unfold no_scheme_colon at h ⊢
      rw [hext2] at h
      rw [hext1]
      exact h

/-- Characters of the cleaned URL string exclude tab, CR and LF. -/
theorem clean_mem_not_ctl (x : PyStr) :
    ∀ c ∈ (x.dropWhile fun c => decide (c ≤ '\x20')).filter
        (fun c => !(c == '\t' || c == '\r' || c == '\n')),
      ¬(c = '\t' ∨ c = '\r' ∨ c = '\n') := by
  intro c hc
  have h2 := (List.mem_filter.mp hc).2
  intro hor
  rcases hor with rfl | rfl | rfl <;> simp at h2

/-- A nonempty cleaned URL string starts above the control-or-space range. -/
theorem clean_head_gt (x : PyStr) :
    ((x.dropWhile fun c => decide (c ≤ '\x20')).filter
        (fun c => !(c == '\t' || c == '\r' || c == '\n'))) ≠ [] →
    ¬(((x.dropWhile fun c => decide (c ≤ '\x20')).filter
        (fun c => !(c == '\t' || c == '\r' || c == '\n'))).headD ' ' ≤ '\x20') := by
  intro hne
  cases hd : x.dropWhile (fun c => decide (c ≤ '\x20')) with
  | nil => rw [hd] at hne; exact absurd rfl hne
  | cons a u =>
    have hpa : (decide (a ≤ '\x20')) = false :=
      head_dropWhile_false _ x a (by rw [hd]; rfl)
    have ha : ¬(a ≤ '\x20') := of_decide_eq_false hpa
    have hkeep : (!(a == '\t' || a == '\r' || a == '\n')) = true := by
      have h1 : a ≠ '\t' := fun he => ha (he ▸ by decide)
      have h2 : a ≠ '\r' := fun he => ha (he ▸ by decide)
      have h3 : a ≠ '\n' := fun he => ha (he ▸ by decide)
      simp [h1, h2, h3]
    rw [List.filter_cons, if_pos hkeep]
    simpa using ha

/-- Scheme-guard failure carries from a string to any of its head parts. -/
theorem no_scheme_colon_of_decomp (s t p : PyStr) (hdec : s = p ++ t)
    (h : no_scheme_colon s) : no_scheme_colon p := by
  unfold no_scheme_colon at h ⊢
  cases hsp : split_at_first ':' p with
  | none => trivial
  | some pr =>
    obtain ⟨pre, post⟩ := pr
    have hext := split_at_first_extend ':' p pre post t hsp
    rw [← hdec] at hext
    rw [hext] at h
    exact h

/-- A string that is empty or starts with a slash cannot open with a scheme. -/
theorem no_scheme_colon_of_head (p : PyStr)
    (hp : p = [] ∨ p.headD ' ' = '/') : no_scheme_colon p := by
  unfold no_scheme_colon
  cases hsp : split_at_first ':' p with
  | none => trivial
  | some pr =>
    obtain ⟨pre, post⟩ := pr
    obtain ⟨hdec, hnm⟩ := split_at_first_decomp ':' p pre post hsp
    rcases hp with rfl | hh
    · exact absurd hdec (by simp)
    · intro hg
      obtain ⟨hne, -, hall⟩ := hg
      cases pre with
      | nil => exact absurd rfl hne
      | cons b q =>
        have hb : b = '/' := by
          rw [hdec] at hh
          simpa using hh
        subst hb
        have := List.all_eq_true.mp hall '/' (List.mem_cons_self _ _)
        exact absurd this (by decide)

/-- An empty takeWhile means an empty list or a failing head. -/
theorem takeWhile_eq_nil_head (p : Char → Bool) (l : List Char)
    (h : l.takeWhile p = []) : l = [] ∨ p (l.headD ' ') = false := by
  cases l with
  | nil => exact Or.inl rfl
  | cons a t =>
    right
    rw [List.takeWhile_cons] at h
    by_cases hp : p a = true
    · rw [if_pos hp] at h
      exact absurd h (by simp)
    · simpa using hp

/-- When the netloc scan comes back empty, any head part of the remaining
text is empty or starts with a slash. -/
theorem path_head_cases (l path t : PyStr)
    (htw : l.takeWhile (fun c => !(c == '/' || c == '?' || c == '#')) = [])
    (hdec : l = path ++ t) (hnoq : '?' ∉ path) (hnoh : '#' ∉ path) :
    path = [] ∨ path.headD ' ' = '/' := by
  cases path with
  | nil => exact Or.inl rfl
  | cons a q =>
    right
    rcases takeWhile_eq_nil_head _ l htw with hld | hfail
    · rw [hld] at hdec
      exact absurd hdec (by simp)
    · have hha : l.headD ' ' = a := by rw [hdec]; rfl
      rw [hha] at hfail
      have h3 : a = '/' ∨ a = '?' ∨ a = '#' := by
        by_contra hcon
        push_neg at hcon
        obtain ⟨n1, n2, n3⟩ := hcon
        simp [n1, n2, n3] at hfail
      rcases h3 with rfl | rfl | rfl
      · rfl
      · exact absurd (List.mem_cons_self _ _) hnoq
      · exact absurd (List.mem_cons_self _ _) hnoh

/-- Properties of a lowercased scheme accepted by the scheme guard. -/
theorem scheme_guard_props (pre : PyStr) (hne : pre ≠ [])
    (hal : (pre.headD ' ').isAlpha = true) (hall : pre.all isSchemeChar = true) :
    ((pre.map Char.toLower).headD ' ').isAlpha = true ∧
    (pre.map Char.toLower).all isSchemeChar = true ∧
    (pre.map Char.toLower).map Char.toLower = pre.map Char.toLower ∧
    pre.map Char.toLower ≠ [] := by
  have hs := List.all_eq_true.mp hall
  refine ⟨?_, ?_, ?_, ?_⟩
  · cases pre with
    | nil => exact absurd rfl hne
    | cons a t =>
      have hsa : isSchemeChar a = true := hs a (List.mem_cons_self _ _)
      have := (toLower_schemeChar a hsa).2.2 (by simpa using hal)
      simpa using this
  · rw [List.all_eq_true]
    intro c hc
    rw [List.mem_map] at hc
    obtain ⟨b, hb, rfl⟩ := hc
    exact (toLower_schemeChar b (hs b hb)).1
  · rw [List.map_map]
    apply List.map_congr_left
    intro b hb
    have := (toLower_schemeChar b (hs b hb)).2.1
    simpa using this
  · cases pre with
    | nil => exact absurd rfl hne
    | cons a t => simp

/-- Core properties of the netloc/path stage of urlsplit, given the stage's
outcome shapes. -/
theorem tail_props_core (u1 u2 sc netloc u3 path : PyStr)
    (hsub2 : ∀ c ∈ u2, c ∈ u1)
    (hmem : ∀ c ∈ u1, ¬(c = '\t' ∨ c = '\r' ∨ c = '\n'))
    (hhead2 : sc = [] → u2 ≠ [] → ¬(u2.headD ' ' ≤ '\x20'))
    (hcolon2 : sc = [] → no_scheme_colon u2)
    (hnl : (netloc = [] ∧ u3 = u2) ∨
      (netloc = (u2.drop 2).takeWhile (fun c => !(c == '/' || c == '?' || c == '#')) ∧
       u3 = (u2.drop 2).drop netloc.length))
    (hdec3 : ∃ t, u3 = path ++ t)
    (hnoq : '?' ∉ path) (hnoh : '#' ∉ path) :
    (∀ c ∈ netloc, c ≠ '/' ∧ c ≠ '?' ∧ c ≠ '#' ∧ c ≠ '\t' ∧ c ≠ '\r' ∧ c ≠ '\n') ∧
    (∀ c ∈ path, c ≠ '?' ∧ c ≠ '#' ∧ c ≠ '\t' ∧ c ≠ '\r' ∧ c ≠ '\n') ∧
    (sc = [] → netloc = [] → path ≠ [] → ¬(path.headD ' ' ≤ '\x20')) ∧
    (sc = [] → netloc = [] → no_scheme_colon path) := by
  obtain ⟨t3, ht3⟩ := hdec3
  have hsub3 : ∀ c ∈ u3, c ∈ u2 := by
    rcases hnl with ⟨-, h3⟩ | ⟨-, h3⟩
    · intro c hc; rw [h3] at hc; exact hc
    · intro c hc
      rw [h3] at hc
      exact List.drop_subset _ _ (List.drop_subset _ _ hc)
  have hsubp : ∀ c ∈ path, c ∈ u3 := by
    intro c hc
    rw [ht3]
    exact List.mem_append_left _ hc
  refine ⟨?_, ?_, ?_, ?_⟩
  · intro c hc
    rcases hnl with ⟨hn, -⟩ | ⟨hn, -⟩
    · rw [hn] at hc
      exact absurd hc (List.not_mem_nil c)
    · rw [hn] at hc
      have hp := List.mem_takeWhile_imp hc
      have hin : c ∈ u2 := List.drop_subset _ _ ((List.takeWhile_sublist _).subset hc)
      have hctl := hmem c (hsub2 c hin)
      push_neg at hctl
      have hsep : ¬(c = '/' ∨ c = '?' ∨ c = '#') := by
        intro hor
        rcases hor with rfl | rfl | rfl <;> simp at hp
      push_neg at hsep
      exact ⟨hsep.1, hsep.2.1, hsep.2.2, hctl.1, hctl.2.1, hctl.2.2⟩
  · intro c hc
    have hctl := hmem c (hsub2 c (hsub3 c (hsubp c hc)))
    push_neg at hctl
    exact ⟨fun he => hnoq (he ▸ hc), fun he => hnoh (he ▸ hc),
      hctl.1, hctl.2.1, hctl.2.2⟩
  · intro hsc0 hnl0 hpne
    rcases hnl with ⟨-, h3⟩ | ⟨hn, h3⟩
    · have hu2e : u2 = path ++ t3 := by rw [← h3, ht3]
      have hu2ne : u2 ≠ [] := by
        rw [hu2e]
        cases path with
        | nil => exact absurd rfl hpne
        | cons a q => simp
      have hh := hhead2 hsc0 hu2ne
      cases path with
      | nil => exact absurd rfl hpne
      | cons a q =>
        have ha : u2.headD ' ' = a := by rw [hu2e]; rfl
        rw [ha] at hh
        simpa using hh
    · have htw : (u2.drop 2).takeWhile
          (fun c => !(c == '/' || c == '?' || c == '#')) = [] := by
        rw [← hn, hnl0]
      have h30 : u3 = u2.drop 2 := by
        rw [h3, hnl0]
        rfl
      rcases path_head_cases (u2.drop 2) path t3 htw (by rw [← h30, ht3]) hnoq hnoh with
        hpe | hph
      · exact absurd hpe hpne
      · rw [hph]
        decide
  · intro hsc0 hnl0
    rcases hnl with ⟨-, h3⟩ | ⟨hn, h3⟩
    · exact no_scheme_colon_of_decomp u2 t3 path (by rw [← h3, ht3]) (hcolon2 hsc0)
    · have htw : (u2.drop 2).takeWhile
          (fun c => !(c == '/' || c == '?' || c == '#')) = [] := by
        rw [← hn, hnl0]
      have h30 : u3 = u2.drop 2 := by
        rw [h3, hnl0]
        rfl
      exact no_scheme_colon_of_head path
        (path_head_cases (u2.drop 2) path t3 htw (by rw [← h30, ht3]) hnoq hnoh)

/-- Outcome of the fragment/query trimming stage: the resulting path is a
head part of the input free of question marks and hashes. -/
theorem fr_qr_stage (u3 : PyStr) (fr qr : PyStr × PyStr)
    (hfr : fr = (match split_at_first '#' u3 with
                 | some (pre, post) => (pre, post)
                 | none => (u3, [])))
    (hqr : qr = (match split_at_first '?' fr.1 with
                 | some (pre, post) => (pre, post)
                 | none => (fr.1, []))) :
    (∃ t, u3 = qr.1 ++ t) ∧ '?' ∉ qr.1 ∧ '#' ∉ qr.1 := by
  have hstep1 : (∃ t1, u3 = fr.1 ++ t1) ∧ '#' ∉ fr.1 := by
    cases hsp : split_at_first '#' u3 with
    | none =>
      rw [hsp] at hfr
      dsimp only at hfr
      subst hfr
      exact ⟨⟨[], by simp⟩, (split_at_first_eq_none '#' u3).mp hsp⟩
    | some pr =>
      obtain ⟨p1, f1⟩ := pr
      rw [hsp] at hfr
      dsimp only at hfr
      subst hfr
      obtain ⟨hdec, hnm⟩ := split_at_first_decomp '#' u3 p1 f1 hsp
      exact ⟨⟨'#' :: f1, hdec⟩, hnm⟩
  obtain ⟨⟨t1, hdec1⟩, hnoh1⟩ := hstep1
  cases hsp : split_at_first '?' fr.1 with
  | none =>
    rw [hsp] at hqr
    dsimp only at hqr
    subst hqr
    exact ⟨⟨t1, hdec1⟩, (split_at_first_eq_none '?' fr.1).mp hsp, hnoh1⟩
  | some pr =>
    obtain ⟨p2, q2⟩ := pr
    rw [hsp] at hqr
    dsimp only at hqr
    subst hqr
    obtain ⟨hdec, hnm⟩ := split_at_first_decomp '?' fr.1 p2 q2 hsp
    refine ⟨⟨'?' :: q2 ++ t1, ?_⟩, hnm, ?_⟩
    · rw [hdec1, hdec, List.append_assoc]
    · intro hm
      exact hnoh1 (hdec ▸ List.mem_append_left _ hm)

/-- Properties of the parse produced by the netloc/fragment/query tail of
urlsplit, for any incoming scheme and post-scheme text. -/
theorem urlsplit_tail_props (u1 u2 sc : PyStr) (r : SplitResult)
    (hsub2 : ∀ c ∈ u2, c ∈ u1)
    (hmem : ∀ c ∈ u1, ¬(c = '\t' ∨ c = '\r' ∨ c = '\n'))
    (hhead2 : sc = [] → u2 ≠ [] → ¬(u2.headD ' ' ≤ '\x20'))
    (hcolon2 : sc = [] → no_scheme_colon u2)
    (hsc : sc = [] ∨ ((sc.headD ' ').isAlpha = true ∧ sc.all isSchemeChar = true ∧
        sc.map Char.toLower = sc ∧ sc ≠ []))
    (h : (let nu :=
            if u2.take 2 = ['/', '/'] then
              let netloc := (u2.drop 2).takeWhile fun c => !(c == '/' || c == '?' || c == '#')
              (netloc, (u2.drop 2).drop netloc.length)
            else ([], u2)
          let netloc := nu.1
          let u3 := nu.2
          if (netloc.contains '[' && !netloc.contains ']') ||
             (netloc.contains ']' && !netloc.contains '[') then none
          else
            let fr :=
              match split_at_first '#' u3 with
              | some (pre, post) => (pre, post)
              | none => (u3, [])
            let qr :=
              match split_at_first '?' fr.1 with
              | some (pre, post) => (pre, post)
              | none => (fr.1, [])
            some ⟨sc, netloc, qr.1, qr.2, fr.2⟩) = some r) :
    (r.scheme = [] ∨ ((r.scheme.headD ' ').isAlpha = true ∧
        r.scheme.all isSchemeChar = true ∧
        r.scheme.map Char.toLower = r.scheme ∧ r.scheme ≠ [])) ∧
    (∀ c ∈ r.netloc, c ≠ '/' ∧ c ≠ '?' ∧ c ≠ '#' ∧ c ≠ '\t' ∧ c ≠ '\r' ∧ c ≠ '\n') ∧
    ((r.netloc.contains '[' && !r.netloc.contains ']') ||
       (r.netloc.contains ']' && !r.netloc.contains '[')) = false ∧
    (∀ c ∈ r.path, c ≠ '?' ∧ c ≠ '#' ∧ c ≠ '\t' ∧ c ≠ '\r' ∧ c ≠ '\n') ∧
    (r.scheme = [] → r.netloc = [] → r.path ≠ [] → ¬(r.path.headD ' ' ≤ '\x20')) ∧
    (r.scheme = [] → r.netloc = [] → no_scheme_colon r.path) := by
  dsimp only at h
  by_cases hnet : u2.take 2 = ['/', '/']
  · rw [if_pos hnet] at h
    dsimp only at h
    split at h
    · exact absurd h (by simp)
    · rename_i hbr
      have hbrf : (((u2.drop 2).takeWhile fun c =>
            !(c == '/' || c == '?' || c == '#')).contains '[' &&
          !((u2.drop 2).takeWhile fun c =>
            !(c == '/' || c == '?' || c == '#')).contains ']' ||
          (((u2.drop 2).takeWhile fun c =>
            !(c == '/' || c == '?' || c == '#')).contains ']' &&
          !((u2.drop 2).takeWhile fun c =>
            !(c == '/' || c == '?' || c == '#')).contains '[')) = false := by
        simpa using hbr
      injection h with h2
      subst h2
      obtain ⟨hdec3, hnoq, hnoh⟩ := fr_qr_stage _ _ _ rfl rfl
      have hcore := tail_props_core u1 u2 sc _ _ _ hsub2 hmem hhead2 hcolon2
        (Or.inr ⟨rfl, rfl⟩) hdec3 hnoq hnoh
      exact ⟨hsc, hcore.1, hbrf, hcore.2.1, hcore.2.2.1, hcore.2.2.2⟩
  · rw [if_neg hnet] at h
    dsimp only at h
    split at h
    · exact absurd h (by simp)
    · rename_i hbr
      have hbrf : ((([] : PyStr).contains '[' && !([] : PyStr).contains ']') ||
          (([] : PyStr).contains ']' && !([] : PyStr).contains '[')) = false := by
        decide
      injection h with h2
      subst h2
      obtain ⟨hdec3, hnoq, hnoh⟩ := fr_qr_stage _ _ _ rfl rfl
      have hcore := tail_props_core u1 u2 sc _ _ _ hsub2 hmem hhead2 hcolon2
        (Or.inl ⟨rfl, rfl⟩) hdec3 hnoq hnoh
      exact ⟨hsc, hcore.1, hbrf, hcore.2.1, hcore.2.2.1, hcore.2.2.2⟩

/-- Structural properties of any successful urlsplit parse: the scheme is
empty or a lowercase well-formed scheme; the netloc avoids separators and
control characters; the path avoids query/fragment separators and control
characters; and with no scheme and no netloc the path neither opens with
control-or-space characters nor re-parses as a scheme. -/
theorem urlsplit_props (x : PyStr) (r : SplitResult) (h : urlsplit x = some r) :
    (r.scheme = [] ∨ ((r.scheme.headD ' ').isAlpha = true ∧
        r.scheme.all isSchemeChar = true ∧
        r.scheme.map Char.toLower = r.scheme ∧ r.scheme ≠ [])) ∧
    (∀ c ∈ r.netloc, c ≠ '/' ∧ c ≠ '?' ∧ c ≠ '#' ∧ c ≠ '\t' ∧ c ≠ '\r' ∧ c ≠ '\n') ∧
    ((r.netloc.contains '[' && !r.netloc.contains ']') ||
       (r.netloc.contains ']' && !r.netloc.contains '[')) = false ∧
    (∀ c ∈ r.path, c ≠ '?' ∧ c ≠ '#' ∧ c ≠ '\t' ∧ c ≠ '\r' ∧ c ≠ '\n') ∧
    (r.scheme = [] → r.netloc = [] → r.path ≠ [] → ¬(r.path.headD ' ' ≤ '\x20')) ∧
    (r.scheme = [] → r.netloc = [] → no_scheme_colon r.path) := by
  unfold urlsplit at h
  dsimp only at h
  cases hsp : split_at_first ':'
      ((x.dropWhile fun c => decide (c ≤ '\x20')).filter
        fun c => !(c == '\t' || c == '\r' || c == '\n')) with
  | none =>
    rw [hsp] at h
    dsimp only at h
    have hcol : no_scheme_colon
        ((x.dropWhile fun c => decide (c ≤ '\x20')).filter
          fun c => !(c == '\t' || c == '\r' || c == '\n')) := by
      unfold no_scheme_colon
      rw [hsp]
      trivial
    exact urlsplit_tail_props _ _ [] r (fun c hc => hc) (clean_mem_not_ctl x)
      (fun _ => clean_head_gt x) (fun _ => hcol) (Or.inl rfl) h
  | some pr =>
    obtain ⟨pre, post⟩ := pr
    rw [hsp] at h
    dsimp only at h
    by_cases hg : pre ≠ [] ∧ (pre.headD ' ').isAlpha ∧ pre.all isSchemeChar
    · rw [if_pos hg] at h
      dsimp only at h
      obtain ⟨hdecu, hnmpre⟩ := split_at_first_decomp ':' _ pre post hsp
      have hprops := scheme_guard_props pre hg.1 hg.2.1 hg.2.2
      refine urlsplit_tail_props _ _ (pre.map Char.toLower) r ?_
        (clean_mem_not_ctl x) ?_ ?_ (Or.inr ⟨hprops.1, hprops.2.1,
          hprops.2.2.1, hprops.2.2.2⟩) h
      · intro c hc
        rw [hdecu]
        exact List.mem_append_right _ (List.mem_cons_of_mem _ hc)
      · intro hsc0
        exact absurd hsc0 hprops.2.2.2
      · intro hsc0
        exact absurd hsc0 hprops.2.2.2
    · rw [if_neg hg] at h
      dsimp only at h
      have hcol : no_scheme_colon
          ((x.dropWhile fun c => decide (c ≤ '\x20')).filter
            fun c => !(c == '\t' || c == '\r' || c == '\n')) := by
        unfold no_scheme_colon
        rw [hsp]
        exact hg
      exact urlsplit_tail_props _ _ [] r (fun c hc => hc) (clean_mem_not_ctl x)
        (fun _ => clean_head_gt x) (fun _ => hcol) (Or.inl rfl) h

/-- Alphabetic characters lie above the control-or-space range. -/
theorem alpha_not_le_space (c : Char) (h : c.isAlpha = true) : ¬(c ≤ '\x20') := by
  have hf := (isAlpha_toNat c).mp h
  intro hle
  have h2 : c.toNat ≤ 32 := hle
  rcases hf with ⟨h3, h4⟩ | ⟨h3, h4⟩ <;> omega

/-- Scheme characters are neither colons nor control characters. -/
theorem scheme_chars_props (sc : PyStr) (hall : sc.all isSchemeChar = true) :
    ∀ c ∈ sc, c ≠ ':' ∧ c ≠ '\t' ∧ c ≠ '\r' ∧ c ≠ '\n' := by
  intro c hc
  have hf := (isSchemeChar_toNat c).mp (List.all_eq_true.mp hall c hc)
  refine ⟨?_, ?_, ?_, ?_⟩ <;> intro he <;> subst he <;> revert hf <;> decide

/-- The WHATWG strip is the identity when the head is above the range. -/
theorem dropWhile_space_keep (l : PyStr) (hne : l ≠ []) (hh : ¬(l.headD ' ' ≤ '\x20')) :
    l.dropWhile (fun c => decide (c ≤ '\x20')) = l := by
  cases l with
  | nil => exact absurd rfl hne
  | cons a t =>
    have ha : ¬(a ≤ '\x20') := by simpa using hh
    rw [List.dropWhile_cons, if_neg (by simpa using ha)]

/-- The tab/CR/LF filter is the identity on strings without them. -/
theorem filter_ctl_keep (l : PyStr) (h : ∀ c ∈ l, c ≠ '\t' ∧ c ≠ '\r' ∧ c ≠ '\n') :
    l.filter (fun c => !(c == '\t' || c == '\r' || c == '\n')) = l :=
  filter_all_eq _ l (fun x hx => by
    obtain ⟨h1, h2, h3⟩ := h x hx
    simp [h1, h2, h3])

/-- Evaluation of the urlsplit tail on a reassembled authority form. -/
theorem urlsplit_tail_eval (sc nl t : PyStr)
    (hnl : ∀ c ∈ nl, c ≠ '/' ∧ c ≠ '?' ∧ c ≠ '#')
    (hbr : ((nl.contains '[' && !nl.contains ']') ||
        (nl.contains ']' && !nl.contains '[')) = false)
    (hq : '?' ∉ ('/' :: t : PyStr)) (hh : '#' ∉ ('/' :: t : PyStr)) :
    ((let u2 : PyStr := '/' :: '/' :: nl ++ '/' :: t
     let nu :=
       if u2.take 2 = ['/', '/'] then
         let netloc := (u2.drop 2).takeWhile fun c => !(c == '/' || c == '?' || c == '#')
         (netloc, (u2.drop 2).drop netloc.length)
       else ([], u2)
     let netloc := nu.1
     let u3 := nu.2
     if (netloc.contains '[' && !netloc.contains ']') ||
        (netloc.contains ']' && !netloc.contains '[') then none
     else
       let fr :=
         match split_at_first '#' u3 with
         | some (pre, post) => (pre, post)
         | none => (u3, [])
       let qr :=
         match split_at_first '?' fr.1 with
         | some (pre, post) => (pre, post)
         | none => (fr.1, [])
       some ⟨sc, netloc, qr.1, qr.2, fr.2⟩ : Option SplitResult)) =
      some ⟨sc, nl, '/' :: t, [], []⟩ := by
  dsimp only
  rw [if_pos (show (('/' :: '/' :: nl ++ '/' :: t : PyStr)).take 2 = ['/', '/'] from rfl)]
  try dsimp only
  have hdrop2 : (('/' :: '/' :: nl ++ '/' :: t : PyStr)).drop 2 = nl ++ '/' :: t := rfl
  rw [hdrop2]
  have htw : (nl ++ '/' :: t).takeWhile
      (fun c => !(c == '/' || c == '?' || c == '#')) = nl :=
    takeWhile_append_stop _ nl '/' t
      (fun x hx => by
        obtain ⟨h1, h2, h3⟩ := hnl x hx
        simp [h1, h2, h3])
      (by decide)
  rw [htw, List.drop_left]
  rw [if_neg (by rw [hbr]; simp)]
  try dsimp only
  rw [(split_at_first_eq_none '#' _).mpr hh]
  try dsimp only
  rw [(split_at_first_eq_none '?' _).mpr hq]

/-- Evaluation of the urlsplit tail on a netloc-free form. -/
theorem urlsplit_tail_eval_plain (sc p : PyStr)
    (htake : p.take 2 ≠ ['/', '/'])
    (hq : '?' ∉ p) (hh : '#' ∉ p) :
    ((let u2 : PyStr := p
     let nu :=
       if u2.take 2 = ['/', '/'] then
         let netloc := (u2.drop 2).takeWhile fun c => !(c == '/' || c == '?' || c == '#')
         (netloc, (u2.drop 2).drop netloc.length)
       else ([], u2)
     let netloc := nu.1
     let u3 := nu.2
     if (netloc.contains '[' && !netloc.contains ']') ||
        (netloc.contains ']' && !netloc.contains '[') then none
     else
       let fr :=
         match split_at_first '#' u3 with
         | some (pre, post) => (pre, post)
         | none => (u3, [])
       let qr :=
         match split_at_first '?' fr.1 with
         | some (pre, post) => (pre, post)
         | none => (fr.1, [])
       some ⟨sc, netloc, qr.1, qr.2, fr.2⟩ : Option SplitResult)) =
      some ⟨sc, [], p, [], []⟩ := by
  dsimp only
  rw [if_neg htake]
  try dsimp only
  rw [if_neg (by decide :
    ¬((([] : PyStr).contains '[' && !([] : PyStr).contains ']') ||
      (([] : PyStr).contains ']' && !([] : PyStr).contains '[')) = true)]
  try dsimp only
  rw [(split_at_first_eq_none '#' _).mpr hh]
  try dsimp only
  rw [(split_at_first_eq_none '?' _).mpr hq]

/-- urlsplit of a reassembled authority URL parses back to its parts. -/
theorem urlsplit_eval_netloc (sc nl P2 : PyStr)
    (hsc : sc = [] ∨ ((sc.headD ' ').isAlpha = true ∧ sc.all isSchemeChar = true ∧
        sc.map Char.toLower = sc ∧ sc ≠ []))
    (hnl : ∀ c ∈ nl, c ≠ '/' ∧ c ≠ '?' ∧ c ≠ '#' ∧ c ≠ '\t' ∧ c ≠ '\r' ∧ c ≠ '\n')
    (hbr : ((nl.contains '[' && !nl.contains ']') ||
        (nl.contains ']' && !nl.contains '[')) = false)
    (hP2ne : P2 ≠ []) (hP2h : P2.headD ' ' = '/')
    (hP2c : ∀ c ∈ P2, c ≠ '?' ∧ c ≠ '#' ∧ c ≠ '\t' ∧ c ≠ '\r' ∧ c ≠ '\n') :
    urlsplit (if sc ≠ [] then sc ++ ':' :: ('/' :: '/' :: nl ++ P2)
              else '/' :: '/' :: nl ++ P2) = some ⟨sc, nl, P2, [], []⟩ := by
  obtain ⟨t, rfl⟩ : ∃ t, P2 = '/' :: t := by
    cases P2 with
    | nil => exact absurd rfl hP2ne
    | cons b t =>
      have hb : b = '/' := by simpa using hP2h
      exact ⟨t, by rw [hb]⟩
  have hq2 : '?' ∉ ('/' :: t : PyStr) := fun hm => (hP2c '?' hm).1 rfl
  have hh2 : '#' ∉ ('/' :: t : PyStr) := fun hm => (hP2c '#' hm).2.1 rfl
  have hnl3 : ∀ c ∈ nl, c ≠ '/' ∧ c ≠ '?' ∧ c ≠ '#' := fun c hc =>
    ⟨(hnl c hc).1, (hnl c hc).2.1, (hnl c hc).2.2.1⟩
  have hyctl : ∀ c ∈ ('/' :: '/' :: nl ++ '/' :: t : PyStr),
      c ≠ '\t' ∧ c ≠ '\r' ∧ c ≠ '\n' := by
    intro c hc
    rcases List.mem_cons.mp hc with rfl | hc
    · exact ⟨by decide, by decide, by decide⟩
    rcases List.mem_cons.mp hc with rfl | hc
    · exact ⟨by decide, by decide, by decide⟩
    rcases List.mem_append.mp hc with hc | hc
    · exact ⟨(hnl c hc).2.2.2.1, (hnl c hc).2.2.2.2.1, (hnl c hc).2.2.2.2.2⟩
    · have h5 := hP2c c hc
      exact ⟨h5.2.2.1, h5.2.2.2.1, h5.2.2.2.2⟩
  rcases hsc with rfl | ⟨hal, hall, hmap, hne⟩
  · rw [if_neg (by simp)]
    unfold urlsplit
    dsimp only
    have hy0ne : ('/' :: '/' :: nl ++ '/' :: t : PyStr) ≠ [] := by simp
    have hy0h : ¬((('/' :: '/' :: nl ++ '/' :: t : PyStr)).headD ' ' ≤ '\x20') :=
      fun hle => (by decide : ¬('/' ≤ '\x20')) hle
    rw [dropWhile_space_keep _ hy0ne hy0h]
    rw [filter_ctl_keep _ hyctl]
    cases hsp : split_at_first ':' ('/' :: '/' :: nl ++ '/' :: t : PyStr) with
    | none =>
      try dsimp only
      exact urlsplit_tail_eval [] nl t hnl3 hbr hq2 hh2
    | some pr =>
      obtain ⟨pre, post⟩ := pr
      try dsimp only
      have hnos := no_scheme_colon_of_head ('/' :: '/' :: nl ++ '/' :: t : PyStr)
        (Or.inr rfl)
      unfold no_scheme_colon at hnos
      rw [hsp] at hnos
      try dsimp only at hnos
      rw [if_neg hnos]
      try dsimp only
      exact urlsplit_tail_eval [] nl t hnl3 hbr hq2 hh2
  · rw [if_pos hne]
    obtain ⟨a, sct, rfl⟩ : ∃ a sct, sc = a :: sct := by
      cases sc with
      | nil => exact absurd rfl hne
      | cons a sct => exact ⟨a, sct, rfl⟩
    unfold urlsplit
    dsimp only
    have hane : ¬(a ≤ '\x20') := alpha_not_le_space a (by simpa using hal)
    have hYne : ((a :: sct) ++ ':' :: ('/' :: '/' :: nl ++ '/' :: t) : PyStr) ≠ [] := by
      simp
    have hYh : ¬((((a :: sct) ++ ':' :: ('/' :: '/' :: nl ++ '/' :: t) : PyStr)).headD
        ' ' ≤ '\x20') := by
      simpa using hane
    rw [dropWhile_space_keep _ hYne hYh]
    have hsch := scheme_chars_props (a :: sct) hall
    have hYctl : ∀ c ∈ ((a :: sct) ++ ':' :: ('/' :: '/' :: nl ++ '/' :: t) : PyStr),
        c ≠ '\t' ∧ c ≠ '\r' ∧ c ≠ '\n' := by
      intro c hc
      rcases List.mem_append.mp hc with hc | hc
      · exact ⟨(hsch c hc).2.1, (hsch c hc).2.2.1, (hsch c hc).2.2.2⟩
      · rcases List.mem_cons.mp hc with rfl | hc
        · exact ⟨by decide, by decide, by decide⟩
        · exact hyctl c hc
    rw [filter_ctl_keep _ hYctl]
    have hncol : ':' ∉ (a :: sct : PyStr) := fun hm => (hsch ':' hm).1 rfl
    rw [split_at_first_found ':' (a :: sct) hncol _]
    try dsimp only
    have hguard : (a :: sct : PyStr) ≠ [] ∧ ((a :: sct).headD ' ').isAlpha = true ∧
        (a :: sct).all isSchemeChar = true := ⟨by simp, hal, hall⟩
    rw [if_pos hguard]
    try dsimp only
    rw [hmap]
    try dsimp only
    exact urlsplit_tail_eval (a :: sct) nl t hnl3 hbr hq2 hh2

/-- urlsplit of a reassembled netloc-free URL parses back to its parts. -/
theorem urlsplit_eval_plain (sc p : PyStr)
    (hsc : sc = [] ∨ ((sc.headD ' ').isAlpha = true ∧ sc.all isSchemeChar = true ∧
        sc.map Char.toLower = sc ∧ sc ≠ []))
    (hpc : ∀ c ∈ p, c ≠ '?' ∧ c ≠ '#' ∧ c ≠ '\t' ∧ c ≠ '\r' ∧ c ≠ '\n')
    (htake : p.take 2 ≠ ['/', '/'])
    (hpne : p ≠ [])
    (hph : sc = [] → ¬(p.headD ' ' ≤ '\x20'))
    (hcolon : sc = [] → no_scheme_colon p) :
    urlsplit (if sc ≠ [] then sc ++ ':' :: p else p) = some ⟨sc, [], p, [], []⟩ := by
  have hq2 : '?' ∉ p := fun hm => (hpc '?' hm).1 rfl
  have hh2 : '#' ∉ p := fun hm => (hpc '#' hm).2.1 rfl
  have hpctl : ∀ c ∈ p, c ≠ '\t' ∧ c ≠ '\r' ∧ c ≠ '\n' := fun c hc =>
    ⟨(hpc c hc).2.2.1, (hpc c hc).2.2.2.1, (hpc c hc).2.2.2.2⟩
  rcases hsc with rfl | ⟨hal, hall, hmap, hne⟩
  · rw [if_neg (by simp)]
    unfold urlsplit
    dsimp only
    rw [dropWhile_space_keep p hpne (hph rfl)]
    rw [filter_ctl_keep p hpctl]
    have hnsc := hcolon rfl
    unfold no_scheme_colon at hnsc
    cases hsp : split_at_first ':' p with
    | none =>
      try dsimp only
      exact urlsplit_tail_eval_plain [] p htake hq2 hh2
    | some pr =>
      obtain ⟨pre, post⟩ := pr
      rw [hsp] at hnsc
      try dsimp only
      try dsimp only at hnsc
      rw [if_neg hnsc]
      try dsimp only
      exact urlsplit_tail_eval_plain [] p htake hq2 hh2
  · rw [if_pos hne]
    obtain ⟨a, sct, rfl⟩ : ∃ a sct, sc = a :: sct := by
      cases sc with
      | nil => exact absurd rfl hne
      | cons a sct => exact ⟨a, sct, rfl⟩
    unfold urlsplit
    dsimp only
    have hane : ¬(a ≤ '\x20') := alpha_not_le_space a (by simpa using hal)
    have hYne : ((a :: sct) ++ ':' :: p : PyStr) ≠ [] := by simp
    have hYh : ¬((((a :: sct) ++ ':' :: p : PyStr)).headD ' ' ≤ '\x20') := by
      simpa using hane
    rw [dropWhile_space_keep _ hYne hYh]
    have hsch := scheme_chars_props (a :: sct) hall
    have hYctl : ∀ c ∈ ((a :: sct) ++ ':' :: p : PyStr),
        c ≠ '\t' ∧ c ≠ '\r' ∧ c ≠ '\n' := by
      intro c hc
      rcases List.mem_append.mp hc with hc | hc
      · exact ⟨(hsch c hc).2.1, (hsch c hc).2.2.1, (hsch c hc).2.2.2⟩
      · rcases List.mem_cons.mp hc with rfl | hc
        · exact ⟨by decide, by decide, by decide⟩
        · exact hpctl c hc
    rw [filter_ctl_keep _ hYctl]
    have hncol : ':' ∉ (a :: sct : PyStr) := fun hm => (hsch ':' hm).1 rfl
    rw [split_at_first_found ':' (a :: sct) hncol p]
    try dsimp only
    have hguard : (a :: sct : PyStr) ≠ [] ∧ ((a :: sct).headD ' ').isAlpha = true ∧
        (a :: sct).all isSchemeChar = true := ⟨by simp, hal, hall⟩
    rw [if_pos hguard]
    try dsimp only
    rw [hmap]
    try dsimp only
    exact urlsplit_tail_eval_plain (a :: sct) p htake hq2 hh2

/-- urlunsplit on parts with empty query and fragment, authority form. -/
theorem urlunsplit_eval_parts (sc nl pp : PyStr)
    (hA : nl ≠ [] ∨ (sc ≠ [] ∧ sc ∈ uses_netloc ∧ pp.take 2 ≠ ['/', '/'])) :
    urlunsplit ⟨sc, nl, pp, [], []⟩ =
      (if sc ≠ [] then sc ++ ':' :: ('/' :: '/' :: nl ++
          (if pp ≠ [] ∧ pp.headD ' ' ≠ '/' then '/' :: pp else pp))
       else '/' :: '/' :: nl ++
          (if pp ≠ [] ∧ pp.headD ' ' ≠ '/' then '/' :: pp else pp)) := by
  unfold urlunsplit
  dsimp only
  rw [if_pos hA]
  rw [if_neg (show ¬(([] : PyStr) ≠ []) from fun hcon => hcon rfl)]
  rw [if_neg (show ¬(([] : PyStr) ≠ []) from fun hcon => hcon rfl)]

/-- urlunsplit on parts with empty query and fragment, plain form. -/
theorem urlunsplit_eval_plain (sc p : PyStr)
    (hB : ¬(([] : PyStr) ≠ [] ∨ (sc ≠ [] ∧ sc ∈ uses_netloc ∧ p.take 2 ≠ ['/', '/']))) :
    urlunsplit ⟨sc, [], p, [], []⟩ = (if sc ≠ [] then sc ++ ':' :: p else p) := by
  unfold urlunsplit
  dsimp only
  rw [if_neg hB]
  rw [if_neg (show ¬(([] : PyStr) ≠ []) from fun hcon => hcon rfl)]
  rw [if_neg (show ¬(([] : PyStr) ≠ []) from fun hcon => hcon rfl)]

/-- Reassembling well-formed parts with a canonical path gives a URL fixed
by canonicalization, provided the parts carry a netloc or the path does not
open with a double slash. -/
theorem canonical_parts_idem (sc nl p : PyStr)
    (hsc : sc = [] ∨ ((sc.headD ' ').isAlpha = true ∧ sc.all isSchemeChar = true ∧
        sc.map Char.toLower = sc ∧ sc ≠ []))
    (hnl : ∀ c ∈ nl, c ≠ '/' ∧ c ≠ '?' ∧ c ≠ '#' ∧ c ≠ '\t' ∧ c ≠ '\r' ∧ c ≠ '\n')
    (hbr : ((nl.contains '[' && !nl.contains ']') ||
        (nl.contains ']' && !nl.contains '[')) = false)
    (hp : ∀ c ∈ p, c ≠ '?' ∧ c ≠ '#' ∧ c ≠ '\t' ∧ c ≠ '\r' ∧ c ≠ '\n')
    (hhead : sc = [] → nl = [] → p ≠ [] → ¬(p.headD ' ' ≤ '\x20'))
    (hcolon : sc = [] → nl = [] → no_scheme_colon p)
    (hcp : canonical_path p = p)
    (hguard : nl ≠ [] ∨ p.take 2 ≠ ['/', '/']) :
    canonicalize_url (urlunsplit ⟨sc, nl, p, [], []⟩) =
      some (urlunsplit ⟨sc, nl, p, [], []⟩) := by
  obtain ⟨q, hq, hlast⟩ := canonical_path_decomp p
  rw [hcp] at hq
  have hpne : p ≠ [] := by rw [hq]; simp
  by_cases hA : nl ≠ [] ∨ (sc ≠ [] ∧ sc ∈ uses_netloc ∧ p.take 2 ≠ ['/', '/'])
  · set P2 : PyStr := if p ≠ [] ∧ p.headD ' ' ≠ '/' then '/' :: p else p with hP2def
    have hP2ne : P2 ≠ [] := by
      rw [hP2def]
      split
      · simp
      · exact hpne
    have hP2h : P2.headD ' ' = '/' := by
      rw [hP2def]
      split
      · rfl
      · rename_i hcond
        push_neg at hcond
        exact hcond hpne
    have hP2c : ∀ c ∈ P2, c ≠ '?' ∧ c ≠ '#' ∧ c ≠ '\t' ∧ c ≠ '\r' ∧ c ≠ '\n' := by
      rw [hP2def]
      split
      · intro c hc
        rcases List.mem_cons.mp hc with rfl | hc
        · exact ⟨by decide, by decide, by decide, by decide, by decide⟩
        · exact hp c hc
      · exact hp
    have hcp2 : canonical_path P2 = P2 := by
      rw [hP2def]
      split
      · rename_i hcond
        exact canonical_path_slash_cons p hcp hcond.2
      · exact hcp
    have hA2 : nl ≠ [] ∨ (sc ≠ [] ∧ sc ∈ uses_netloc ∧ P2.take 2 ≠ ['/', '/']) := by
      rcases hA with h | ⟨h1, h2, h3⟩
      · exact Or.inl h
      · refine Or.inr ⟨h1, h2, ?_⟩
        rw [hP2def]
        split
        · rename_i hcond
          obtain ⟨hne2, hh2⟩ := hcond
          cases p with
          | nil => exact absurd rfl hne2
          | cons a t2 =>
            intro he
            have ha : a = '/' := by
              have := congrArg (fun l => l.getD 1 ' ') he
              simpa using this
            exact hh2 (by simpa using ha)
        · exact h3
    have hy := urlunsplit_eval_parts sc nl p hA
    rw [← hP2def] at hy
    have hsplity := urlsplit_eval_netloc sc nl P2 hsc hnl hbr hP2ne hP2h hP2c
    have hin : ¬(P2 ≠ [] ∧ P2.headD ' ' ≠ '/') := fun hcon => hcon.2 hP2h
    have hy2 := urlunsplit_eval_parts sc nl P2 hA2
    rw [if_neg hin] at hy2
    unfold canonicalize_url
    rw [hy, hsplity, Option.map_some']
    have hrec : ({ scheme := sc
                   netloc := nl
                   path := canonical_path P2
                   query := []
                   fragment := [] } : SplitResult) = ⟨sc, nl, P2, [], []⟩ := by
      rw [hcp2]
    rw [hrec, hy2]
  · have hnl0 : nl = [] := by
      by_contra hcon
      exact hA (Or.inl hcon)
    subst hnl0
    have htake : p.take 2 ≠ ['/', '/'] := by
      rcases hguard with h | h
      · exact absurd rfl h
      · exact h
    have hy := urlunsplit_eval_plain sc p hA
    have hsplity := urlsplit_eval_plain sc p hsc hp htake hpne
      (fun hsc0 => hhead hsc0 rfl hpne) (fun hsc0 => hcolon hsc0 rfl)
    unfold canonicalize_url
    rw [hy, hsplity, Option.map_some']
    have hrec : ({ scheme := sc
                   netloc := []
                   path := canonical_path p
                   query := []
                   fragment := [] } : SplitResult) = ⟨sc, [], p, [], []⟩ := by
      rw [hcp]
    rw [hrec, hy]

/-- C4 (amended): canonicalize_url strips the query and fragment and forces
exactly one trailing slash on the path, and it is idempotent on every URL
whose parse has a nonempty netloc or whose canonical path does not open
with a double slash; full idempotence as claimed fails (see the
counterexample). -/
theorem canonicalize_url_c4_idem :
    (∀ (x : PyStr) (r : SplitResult) (y : PyStr), urlsplit x = some r →
      canonicalize_url x = some y →
      (r.netloc ≠ [] ∨ (canonical_path r.path).take 2 ≠ ['/', '/']) →
      canonicalize_url y = some y) ∧
    (∀ (x : PyStr) (r : SplitResult), urlsplit x = some r →
      canonicalize_url x =
        some (urlunsplit ⟨r.scheme, r.netloc, canonical_path r.path, [], []⟩)) ∧
    (∀ p : PyStr, ∃ q, canonical_path p = q ++ ['/'] ∧ q.getLast? ≠ some '/') ∧
    canonicalize_url (pyStr "https://avto.pro/helpcenter/payments/article/?utm=1#top") =
      some (pyStr "https://avto.pro/helpcenter/payments/article/") ∧
    canonicalize_url (pyStr "/a") = some (pyStr "/a/") ∧
    canonicalize_url (pyStr "/a/") = some (pyStr "/a/") := by
  refine ⟨?_, ?_, canonical_path_decomp, by decide, by decide, by decide⟩
  · intro x r y hsp hcan hguard
    unfold canonicalize_url at hcan
    rw [hsp, Option.map_some', Option.some.injEq] at hcan
    subst hcan
    obtain ⟨h1, h2, h3, h4, h5, h6⟩ := urlsplit_props x r hsp
    have hpcp : ∀ c ∈ canonical_path r.path,
        c ≠ '?' ∧ c ≠ '#' ∧ c ≠ '\t' ∧ c ≠ '\r' ∧ c ≠ '\n' := by
      intro c hc
      rcases canonical_path_mem r.path c hc with rfl | hc2
      · exact ⟨by decide, by decide, by decide, by decide, by decide⟩
      · exact h4 c hc2
    have hheadcp : r.scheme = [] → r.netloc = [] → canonical_path r.path ≠ [] →
        ¬((canonical_path r.path).headD ' ' ≤ '\x20') := by
      intro hs0 hn0 _
      rcases canonical_path_head r.path with hh | ⟨hpne, hh⟩
      · rw [hh]
        decide
      · rw [hh]
        exact h5 hs0 hn0 hpne
    have hcolcp : r.scheme = [] → r.netloc = [] →
        no_scheme_colon (canonical_path r.path) :=
      fun hs0 hn0 => no_scheme_colon_canonical _ (h6 hs0 hn0)
    exact canonical_parts_idem r.scheme r.netloc (canonical_path r.path)
      h1 h2 h3 hpcp hheadcp hcolcp (canonical_path_idem r.path) hguard
  · intro x r hsp
    unfold canonicalize_url
    rw [hsp, Option.map_some']

/-- Witness for C4: the parse of "https://avto.pro/x" has netloc "avto.pro",
so by the theorem its canonical form "https://avto.pro/x/" is a fixpoint of
canonicalize_url. -/
theorem canonicalize_url_c4_idem_witness :
    canonicalize_url (pyStr "https://avto.pro/x/") =
      some (pyStr "https://avto.pro/x/") := by
  have hsp : urlsplit (pyStr "https://avto.pro/x") =
      some ⟨pyStr "https", pyStr "avto.pro", pyStr "/x", [], []⟩ := by decide
  have hcan : canonicalize_url (pyStr "https://avto.pro/x") =
      some (pyStr "https://avto.pro/x/") := by decide
  have hg : (⟨pyStr "https", pyStr "avto.pro", pyStr "/x", [], []⟩ :
        SplitResult).netloc ≠ [] ∨
      (canonical_path (⟨pyStr "https", pyStr "avto.pro", pyStr "/x", [], []⟩ :
        SplitResult).path).take 2 ≠ ['/', '/'] :=
    Or.inl (by decide)
  exact canonicalize_url_c4_idem.1 (pyStr "https://avto.pro/x") _ _ hsp hcan hg

/-- C4 counterexample: canonicalize_url is not idempotent — "/////a" maps
to "///a/", which maps again to the different string "/a/" (the re-parse
reads the leading double slash as an empty netloc and drops it). -/
theorem canonicalize_url_c4_cex :
    canonicalize_url (pyStr "/////a") = some (pyStr "///a/") ∧
    canonicalize_url (pyStr "///a/") = some (pyStr "/a/") ∧
    some (pyStr "///a/") ≠ some (pyStr "/a/") := by
  refine ⟨by decide, by decide, by decide⟩
